import Mathlib

/-!
Verification of the l402-agent repository: a shallow embedding in Lean 4 of
the L402 protocol core (challenge codec, proof verifier, credential cache,
server gate middleware, client orchestrator) together with theorems about
the properties stated in the specification.

Conventions of the embedding:
- JavaScript strings are Lean `String`; character-level operations are done
  on `String.data` (a `List Char`).  `Char.toLower` in Lean core is the
  ASCII-only lowering, which agrees with JS `toLowerCase` on the ASCII
  range relevant to the protocol headers.
- A JS `Map` is an insertion-ordered association list `List (key × value)`.
- `Buffer.from(s, 'hex')` is modelled by `hexDecodeStr`, reproducing the
  lenient Node semantics: bytes are decoded pairwise from the left and
  decoding stops (without error) at the first invalid character or
  incomplete pair.
- SHA-256 (Node `crypto.createHash('sha256')`, external to the repository)
  is implemented concretely from FIPS 180-4 over byte lists, with 32-bit
  words as `Nat` reduced mod 2^32.
- Fallible wallet capabilities are `Except Unit _` valued functions.
-/

set_option maxRecDepth 10000

namespace L402

/-! ## Association-list model of a JS Map (insertion ordered) -/

/-- `Map.get`: first entry with the given key. -/
def mapGet {β : Type} (m : List (String × β)) (k : String) : Option β :=
  match m with
  | [] => none
  | (k0, v) :: rest => if k0 = k then some v else mapGet rest k

/-- `Map.set`: overwrite in place if the key is present, else append. -/
def mapSet {β : Type} (m : List (String × β)) (k : String) (v : β) :
    List (String × β) :=
  if m.any (fun p => p.1 = k) then
    m.map (fun p => if p.1 = k then (k, v) else p)
  else m ++ [(k, v)]

/-- `Map.delete`: remove the entry with the given key. -/
def mapDelete {β : Type} (m : List (String × β)) (k : String) :
    List (String × β) :=
  m.filter (fun p => p.1 ≠ k)

/-! ## Hex encoding and decoding -/

/-- Value of one hex digit character, `none` if not a hex digit. -/
def hexVal (c : Char) : Option Nat :=
  if 48 ≤ c.toNat ∧ c.toNat ≤ 57 then some (c.toNat - 48)
  else if 97 ≤ c.toNat ∧ c.toNat ≤ 102 then some (c.toNat - 87)
  else if 65 ≤ c.toNat ∧ c.toNat ≤ 70 then some (c.toNat - 55)
  else none

/-- Lowercase hex digit for a value below 16 (as emitted by Node digest hex). -/
def hexDigit (n : Nat) : Char :=
  if n < 10 then Char.ofNat (48 + n) else Char.ofNat (87 + n)

/-- Two lowercase hex characters of one byte. -/
def hexByte (b : Nat) : List Char :=
  [hexDigit (b / 16 % 16), hexDigit (b % 16)]

/-- Lowercase hex characters of a byte list. -/
def hexChars (bs : List Nat) : List Char :=
  bs.flatMap hexByte

/-- Lowercase hex string of a byte list (Node `digest('hex')`). -/
def hexEncodeStr (bs : List Nat) : String :=
  ⟨hexChars bs⟩

/-- Node `Buffer.from(·, 'hex')` on a character list: decode pairs from the
left, stop silently at the first invalid character or incomplete pair. -/
def hexDecodeChars : List Char → List Nat
  | c1 :: c2 :: rest =>
    match hexVal c1, hexVal c2 with
    | some h, some l => (16 * h + l) :: hexDecodeChars rest
    | _, _ => []
  | _ => []

/-- Node `Buffer.from(·, 'hex')` on a string. -/
def hexDecodeStr (s : String) : List Nat :=
  hexDecodeChars s.data

/-- A strictly well-formed hex string: even length, all hex digits.  This is
the notion of well-formedness used by the specification when it speaks of
decoding failures. -/
def isWellFormedHex (s : String) : Bool :=
  s.data.length % 2 = 0 && s.data.all (fun c => (hexVal c).isSome)

/-! ## ASCII case conversion (JS `toLowerCase` / `toUpperCase` on ASCII) -/

/-- JS `String.prototype.toLowerCase`, restricted to the ASCII lowering that
all protocol-relevant strings use. -/
def jsToLower (s : String) : String :=
  ⟨s.data.map Char.toLower⟩

/-- JS `String.prototype.toUpperCase`, ASCII fragment. -/
def jsToUpper (s : String) : String :=
  ⟨s.data.map Char.toUpper⟩

/-! ## SHA-256 (FIPS 180-4), bytes as `Nat` below 256, words mod 2^32 -/

def wmask (x : Nat) : Nat := x % 4294967296

def wadd (a b : Nat) : Nat := (a + b) % 4294967296

/-- Bitwise xor over the low `fuel` bits, by arithmetic (kernel friendly). -/
def xorF : Nat → Nat → Nat → Nat
  | 0, _, _ => 0
  | k + 1, a, b => (a + b) % 2 + 2 * xorF k (a / 2) (b / 2)

/-- Bitwise and over the low `fuel` bits, by arithmetic (kernel friendly). -/
def andF : Nat → Nat → Nat → Nat
  | 0, _, _ => 0
  | k + 1, a, b => a % 2 * (b % 2) + 2 * andF k (a / 2) (b / 2)

def xor32 (a b : Nat) : Nat := xorF 32 a b

def and32 (a b : Nat) : Nat := andF 32 a b

/-- 32-bit right rotation of a word below 2^32, as arithmetic. -/
def rotr (n x : Nat) : Nat := x / 2 ^ n + x % 2 ^ n * 2 ^ (32 - n)

def bigS0 (x : Nat) : Nat := xor32 (xor32 (rotr 2 x) (rotr 13 x)) (rotr 22 x)

def bigS1 (x : Nat) : Nat := xor32 (xor32 (rotr 6 x) (rotr 11 x)) (rotr 25 x)

def smallS0 (x : Nat) : Nat := xor32 (xor32 (rotr 7 x) (rotr 18 x)) (x / 2 ^ 3)

def smallS1 (x : Nat) : Nat :=
  xor32 (xor32 (rotr 17 x) (rotr 19 x)) (x / 2 ^ 10)

/-- SHA-256 choice function; `4294967295 - x` is the 32-bit complement. -/
def chF (x y z : Nat) : Nat := xor32 (and32 x y) (and32 (4294967295 - x) z)

def majF (x y z : Nat) : Nat :=
  xor32 (xor32 (and32 x y) (and32 x z)) (and32 y z)

def sha256K : List Nat :=
  [1116352408, 1899447441, 3049323471, 3921009573, 961987163, 1508970993,
   2453635748, 2870763221, 3624381080, 310598401, 607225278, 1426881987,
   1925078388, 2162078206, 2614888103, 3248222580, 3835390401, 4022224774,
   264347078, 604807628, 770255983, 1249150122, 1555081692, 1996064986,
   2554220882, 2821834349, 2952996808, 3210313671, 3336571891, 3584528711,
   113926993, 338241895, 666307205, 773529912, 1294757372, 1396182291,
   1695183700, 1986661051, 2177026350, 2456956037, 2730485921, 2820302411,
   3259730800, 3345764771, 3516065817, 3600352804, 4094571909, 275423344,
   430227734, 506948616, 659060556, 883997877, 958139571, 1322822218,
   1537002063, 1747873779, 1955562222, 2024104815, 2227730452, 2361852424,
   2428436474, 2756734187, 3204031479, 3329325298]

def initH : List Nat :=
  [1779033703, 3144134277, 1013904242, 2773480762, 1359893119, 2600822924,
   528734635, 1541459225]

/-- Extend the 16-word message schedule by `n` further words. -/
def sched (ws : List Nat) : Nat → List Nat
  | 0 => ws
  | n + 1 =>
    let m := ws.length
    let w :=
      wadd (wadd (smallS1 (ws.getD (m - 2) 0)) (ws.getD (m - 7) 0))
        (wadd (smallS0 (ws.getD (m - 15) 0)) (ws.getD (m - 16) 0))
    sched (ws ++ [w]) n

/-- One SHA-256 compression round. -/
def round (st : List Nat) (kw : Nat × Nat) : List Nat :=
  match st with
  | [a, b, c, d, e, f, g, h] =>
    let t1 := wadd (wadd (wadd h (bigS1 e)) (wadd (chF e f g) kw.1)) kw.2
    let t2 := wadd (bigS0 a) (majF a b c)
    [wadd t1 t2, a, b, c, wadd d t1, e, f, g]
  | _ => st

/-- Compress one 16-word block into the running hash. -/
def compress (h : List Nat) (block : List Nat) : List Nat :=
  let ws := sched block 48
  let st := (sha256K.zip ws).foldl round h
  (h.zip st).map (fun p => wadd p.1 p.2)

/-- Big-endian 32-bit words from bytes (4 bytes each). -/
def toWords : List Nat → List Nat
  | b0 :: b1 :: b2 :: b3 :: rest =>
    (((b0 * 256 + b1) * 256 + b2) * 256 + b3) :: toWords rest
  | _ => []

/-- 8-byte big-endian encoding of a number. -/
def lenBytes (n : Nat) : List Nat :=
  [n / 2 ^ 56 % 256, n / 2 ^ 48 % 256, n / 2 ^ 40 % 256, n / 2 ^ 32 % 256,
   n / 2 ^ 24 % 256, n / 2 ^ 16 % 256, n / 2 ^ 8 % 256, n % 256]

/-- SHA-256 padding of a byte message. -/
def padMsg (msg : List Nat) : List Nat :=
  let n := msg.length
  let r := (n + 1) % 64
  let z := if r ≤ 56 then 56 - r else 120 - r
  msg ++ [128] ++ List.replicate z 0 ++ lenBytes (8 * n)

/-- Split a list into chunks of 16 elements (fuel-based so that the kernel
can evaluate it; the fuel is the list length, which always suffices). -/
def chunk16F : Nat → List Nat → List (List Nat)
  | 0, _ => []
  | _, [] => []
  | fuel + 1, l => l.take 16 :: chunk16F fuel (l.drop 16)

/-- Split a list into chunks of 16 elements. -/
def chunk16 (l : List Nat) : List (List Nat) :=
  chunk16F l.length l

/-- Bytes of one 32-bit word, big endian. -/
def wordBytes (w : Nat) : List Nat :=
  [w / 2 ^ 24 % 256, w / 2 ^ 16 % 256, w / 2 ^ 8 % 256, w % 256]

/-- SHA-256 digest (32 bytes) of a byte message. -/
def sha256 (msg : List Nat) : List Nat :=
  let blocks := chunk16 (toWords (padMsg msg))
  (blocks.foldl compress initH).flatMap wordBytes

/-! ## JS string helpers used by the header functions -/

/-- JS whitespace test, ASCII fragment (space, tab, newline, cr, ff, vt). -/
def jsIsWs (c : Char) : Bool :=
  c = ' ' ∨ c = '\t' ∨ c = '\n' ∨ c = '\x0d' ∨ c = '\x0c' ∨ c = '\x0b'

/-- JS `String.prototype.trim` on a character list. -/
def jsTrimChars (l : List Char) : List Char :=
  ((l.dropWhile jsIsWs).reverse.dropWhile jsIsWs).reverse

/-- Index of the first occurrence of a character (JS `indexOf`). -/
def charIndexOf (c : Char) : List Char → Option Nat
  | [] => none
  | d :: rest =>
    if d = c then some 0 else (charIndexOf c rest).map (· + 1)

/-! ## Proof Verifier and server-side codec (middleware module) -/

/-- `verifyPreimage(preimage, paymentHash)`: hash the bytes leniently decoded
from the hex `preimage` and compare to `paymentHash.toLowerCase()`.  Total:
Node hex decoding never throws on a string. -/
def verifyPreimage (preimage paymentHash : String) : Bool :=
  hexEncodeStr (sha256 (hexDecodeStr preimage)) == jsToLower paymentHash

/-- A parsed `Authorization` header: `L402 <macaroon>:<preimage>`. -/
structure ProofRec where
  macaroon : String
  preimage : String
deriving DecidableEq, Repr

/-- `parseAuthHeader(header)`: `none` models JS `null`.  The argument is an
`Option` because the header may be absent on the request. -/
def parseAuthHeader (header : Option String) : Option ProofRec :=
  match header with
  | none => none
  | some h =>
    if h.data = [] then none
    else
      let t := jsTrimChars h.data
      if ("L402 ".data.isPrefixOf t ∨ "l402 ".data.isPrefixOf t) then
        let token := jsTrimChars (t.drop 5)
        match charIndexOf ':' token with
        | none => none
        | some i =>
          let mac := token.take i
          let pre := token.drop (i + 1)
          if mac = [] ∨ pre = [] then none
          else if mac.all (fun c => (hexVal c).isSome) then
            if pre.all (fun c => (hexVal c).isSome) then
              some ⟨⟨mac⟩, ⟨pre⟩⟩
            else none
          else none
      else none

/-- `buildWwwAuthenticateHeader(invoice, macaroon)`. -/
def buildWwwAuthenticateHeader (invoice macaroon : String) : String :=
  "L402 invoice=\"" ++ invoice ++ "\", macaroon=\"" ++ macaroon ++ "\""

/-! ## Server gate middleware (`l402Middleware`) -/

/-- Middleware configuration (`wallet` is passed per call as the invoice
creation result; `amountSats` is validated positive by the `l402` factory). -/
structure MwConfig where
  amountSats : Nat
  description : Option String
  expirySeconds : Nat
deriving DecidableEq, Repr

/-- Result of `wallet.createInvoice`. -/
structure InvoiceResult where
  invoice : String
  paymentHash : String
deriving DecidableEq, Repr

/-- A `pendingHashes` table entry. -/
structure PendingEntry where
  invoice : String
  amountSats : Nat
  createdAt : Nat
  expiryMs : Nat
deriving DecidableEq, Repr

/-- Payment facts attached to the request on admission (`req.l402`). -/
structure ReqL402 where
  paymentHash : String
  preimage : String
  amountSats : Nat
deriving DecidableEq, Repr

/-- JSON body of the 402 response. -/
structure ChallengeBody where
  error : String
  amountSats : Nat
  description : String
  invoice : String
  paymentHash : String
deriving DecidableEq, Repr

/-- Observable outcome of one middleware invocation. -/
inductive MwOutcome where
  | admitted (facts : ReqL402)
  | challenged (status : Nat) (wwwAuth : String) (body : ChallengeBody)
  | internalError (status : Nat)
deriving DecidableEq, Repr

/-- Sweep of the `pendingHashes` table: delete entries past their expiry. -/
def sweepPending (now : Nat) (m : List (String × PendingEntry)) :
    List (String × PendingEntry) :=
  m.filter (fun p => ¬ (now - p.2.createdAt > p.2.expiryMs))

/-- The effective invoice description: `description || default` (an empty
string is falsy in JS and falls back too). -/
def mwDescription (cfg : MwConfig) : String :=
  let defaultDesc := "L402 payment: " ++ toString cfg.amountSats ++ " sats"
  match cfg.description with
  | some d => if d = "" then defaultDesc else d
  | none => defaultDesc

/-- One request through `l402Middleware`.  `invoiceRes` is the outcome of the
awaited external `wallet.createInvoice` call (only consulted on the challenge
path); `now` is `Date.now()`; `pending` is the `pendingHashes` table. -/
def l402Middleware (cfg : MwConfig) (invoiceRes : Except Unit InvoiceResult)
    (now : Nat) (auth : Option String)
    (pending : List (String × PendingEntry)) :
    MwOutcome × List (String × PendingEntry) :=
  let verdict : Option ReqL402 :=
    match parseAuthHeader auth with
    | some pr =>
      let paymentHash := jsToLower pr.macaroon
      if verifyPreimage pr.preimage paymentHash then
        some ⟨paymentHash, jsToLower pr.preimage, cfg.amountSats⟩
      else none
    | none => none
  match verdict with
  | some facts => (.admitted facts, pending)
  | none =>
    match invoiceRes with
    | .error _ => (.internalError 500, pending)
    | .ok r =>
      let desc := mwDescription cfg
      let m1 := mapSet pending r.paymentHash
        ⟨r.invoice, cfg.amountSats, now, cfg.expirySeconds * 1000⟩
      let m2 := if m1.length > 100 then sweepPending now m1 else m1
      (.challenged 402 (buildWwwAuthenticateHeader r.invoice r.paymentHash)
        ⟨"Payment Required", cfg.amountSats, desc, r.invoice, r.paymentHash⟩,
       m2)

/-! ## Client challenge decoding (`parseWwwAuthenticate`)

The JS code extracts fields with the regexes `/invoice="([^"]+)"/i` and
`/macaroon="([^"]+)"/i`: the leftmost position where the quoted literal
matches case-insensitively, capturing the (non-empty) run of non-quote
characters up to the next quote. -/

/-- Drop a case-insensitive literal from the front of a list; `none` when the
front does not match. -/
def dropLitCI : List Char → List Char → Option (List Char)
  | [], s => some s
  | _ :: _, [] => none
  | l :: ls, c :: cs =>
    if l.toLower = c.toLower then dropLitCI ls cs else none

/-- Try the pattern (literal then a non-empty `[^"]+` capture then a closing
quote) at the current position. -/
def tryQuotedAt (lit s : List Char) : Option (List Char) :=
  match dropLitCI lit s with
  | none => none
  | some r =>
    let body := r.takeWhile (fun c => c ≠ '"')
    if body = [] then none
    else if body.length = r.length then none
    else some body

/-- Leftmost match of the quoted-field pattern (JS `String.prototype.match`,
group 1). -/
def findQuoted (lit : List Char) : List Char → Option (List Char)
  | [] => none
  | c :: rest =>
    match tryQuotedAt lit (c :: rest) with
    | some body => some body
    | none => findQuoted lit rest

/-- A decoded challenge header. -/
structure Challenge where
  invoice : String
  macaroon : String
deriving DecidableEq, Repr

/-- `parseWwwAuthenticate(header)`. -/
def parseWwwAuthenticate (header : Option String) : Option Challenge :=
  match header with
  | none => none
  | some h =>
    if h.data = [] then none
    else
      let t := jsTrimChars h.data
      if ("L402 ".data.isPrefixOf t ∨ "l402 ".data.isPrefixOf t) then
        let rest := t.drop 5
        match findQuoted "invoice=\"".data rest,
              findQuoted "macaroon=\"".data rest with
        | some inv, some mac => some ⟨⟨inv⟩, ⟨mac⟩⟩
        | _, _ => none
      else none

/-! ## Credential cache (`CredentialCache`) -/

/-- A cache entry as stored by `set`. -/
structure CacheEntry where
  macaroon : String
  preimage : String
  expiresAt : Nat
  storedAt : Nat
deriving DecidableEq, Repr

/-- Credential as passed to `set` (`expiresAt` optional; `0` is falsy in JS
and therefore also falls back to the default TTL). -/
structure CredIn where
  macaroon : String
  preimage : String
  expiresAt : Option Nat
deriving DecidableEq, Repr

/-- A credential as returned by `get`. -/
structure CredOut where
  macaroon : String
  preimage : String
deriving DecidableEq, Repr

/-- Cache state: insertion-ordered map plus configuration. -/
structure CacheState where
  entries : List (String × CacheEntry)
  maxSize : Nat
  defaultTtlMs : Nat
deriving DecidableEq, Repr

/-- The `CredentialCache` constructor: `maxSize` and `defaultTtlMs` fall back
to 1000 and 3600000 when absent or `0` (falsy). -/
def mkCache (maxSize : Option Nat) (defaultTtlMs : Option Nat) : CacheState :=
  ⟨[],
   match maxSize with
   | some v => if v = 0 then 1000 else v
   | none => 1000,
   match defaultTtlMs with
   | some v => if v = 0 then 3600000 else v
   | none => 3600000⟩

/-- `new URL(url)` origin + pathname, query and fragment stripped.  This is a
simplified model of the WHATWG parser adequate for ordinary absolute http
URLs (no case or port normalisation). -/
def urlOriginPath (url : String) : String :=
  let l := url.data
  let rec findScheme : List Char → Option (List Char × List Char)
    | ':' :: '/' :: '/' :: rest => some ([], rest)
    | c :: rest =>
      (findScheme rest).map (fun p => (c :: p.1, p.2))
    | [] => none
  match findScheme l with
  | none => url
  | some (scheme, rest) =>
    let auth := rest.takeWhile (fun c => c ≠ '/' ∧ c ≠ '?' ∧ c ≠ '#')
    let after := rest.drop auth.length
    let path := after.takeWhile (fun c => c ≠ '?' ∧ c ≠ '#')
    let path := if path = [] then ['/'] else path
    ⟨scheme ++ (':' :: '/' :: '/' :: auth) ++ path⟩

/-- `CredentialCache.key(url, method)`. -/
def cacheKey (url : String) (method : Option String) : String :=
  let normalized := urlOriginPath url
  match method with
  | some m => m ++ ":" ++ normalized
  | none => normalized

/-- The expiry stored by `set`: `credential.expiresAt || Date.now() + ttl`
(`0` is falsy in JS, hence also replaced by the default). -/
def effectiveExpiry (cred : CredIn) (ttl now : Nat) : Nat :=
  match cred.expiresAt with
  | some v => if v = 0 then now + ttl else v
  | none => now + ttl

namespace CacheState

/-- `set(url, credential, method)` at time `now`: evict the oldest-inserted
entry whenever the table is at (or over) capacity, then insert/overwrite. -/
def set (st : CacheState) (url : String) (cred : CredIn)
    (method : Option String) (now : Nat) : CacheState :=
  let k := cacheKey url method
  let entries :=
    if st.entries.length ≥ st.maxSize then
      match st.entries with
      | [] => []
      | _ :: rest => rest
    else st.entries
  let e : CacheEntry :=
    ⟨cred.macaroon, cred.preimage, effectiveExpiry cred st.defaultTtlMs now,
     now⟩
  { st with entries := mapSet entries k e }

/-- Whether an entry counts as expired at time `now` (`entry.expiresAt` is
truthiness-checked first, so `0` disables expiry). -/
def expired (e : CacheEntry) (now : Nat) : Bool :=
  e.expiresAt ≠ 0 ∧ now > e.expiresAt

/-- `get(url, method)` at time `now`: returns the credential and the
(possibly updated) state, deleting an expired entry as a side effect. -/
def get (st : CacheState) (url : String) (method : Option String)
    (now : Nat) : Option CredOut × CacheState :=
  let k := cacheKey url method
  match mapGet st.entries k with
  | none => (none, st)
  | some e =>
    if expired e now then
      (none, { st with entries := mapDelete st.entries k })
    else (some ⟨e.macaroon, e.preimage⟩, st)

/-- `invalidate(url, method)`. -/
def invalidate (st : CacheState) (url : String) (method : Option String) :
    CacheState :=
  { st with entries := mapDelete st.entries (cacheKey url method) }

/-- `cleanup()` at time `now`: remove all expired entries. -/
def cleanup (st : CacheState) (now : Nat) : CacheState :=
  { st with entries := st.entries.filter (fun p => ¬ expired p.2 now) }

/-- `clear()`. -/
def clear (st : CacheState) : CacheState := { st with entries := [] }

end CacheState

/-! ## Client orchestrator (`l402Fetch`) -/

/-- `decoded.amountSats` as a JS value: the field may be missing
(`undefined`), `null`, or a number.  `undefined` and `null` behave
differently in the amount check, so the distinction is kept. -/
inductive JsAmt where
  | undef
  | nullv
  | num (n : Nat)
deriving DecidableEq, Repr

/-- External wallet capability used by the client. -/
structure Wallet where
  /-- `decodeInvoice` is optional; when present it may throw (`.error`) or
  return an object whose `amountSats` field is a `JsAmt`. -/
  decodeInvoice : Option (String → Except Unit JsAmt)
  /-- `payInvoice` may reject (`.error`); on success the `preimage` field may
  be absent (`none`). -/
  payInvoice : String → Except Unit (Option String)

/-- An HTTP response, reduced to the fields the orchestrator inspects.
`bodyAmountSats = some v` models a JSON body carrying a numeric `amountSats`
field with value `v`; `none` models a non-JSON body or a missing field. -/
structure Response where
  status : Nat
  wwwAuthenticate : Option String
  bodyAmountSats : Option Nat
deriving DecidableEq, Repr

/-- Arguments of one `l402Fetch` call, with the cache instance already
resolved (`credentialCache || (useCache ? getGlobalCache() : null)`). -/
structure FetchArgs where
  url : String
  method : Option String
  wallet : Option Wallet
  maxAmountSats : Option Nat
  cache : Option CacheState
  hasOnPayment : Bool

/-- The three distinguishable errors raised by the orchestrator. -/
inductive L402Err where
  | capExceeded (amount cap : Nat)
  | payFailed
  | noPreimage
deriving DecidableEq, Repr

/-- Observable events of one `l402Fetch` call, in order.  Fetch events carry
the index of the network exchange and the `Authorization` header sent. -/
inductive Ev where
  | fetchCached (k : Nat) (auth : String)
  | fetchBare (k : Nat)
  | fetchRetry (k : Nat) (auth : String)
  | payCall (invoice : String)
  | decodeCall (invoice : String)
  | onPaymentCall (invoice : String) (preimage : String)
deriving DecidableEq, Repr

/-- Result of one `l402Fetch` call. -/
structure FetchRes where
  result : Except L402Err Response
  cache : Option CacheState
  trace : List Ev
deriving Repr

/-- The effective HTTP method: `(fetchOpts.method || 'GET').toUpperCase()`. -/
def effMethod (m : Option String) : String :=
  jsToUpper (match m with
    | some s => if s = "" then "GET" else s
    | none => "GET")

/-- Step 5 amount determination: capability decode first (a throw keeps the
amount `null`), then — only if the amount is still `null` — the truthy
`amountSats` field of the 402 response body. -/
def determineAmount (w : Wallet) (invoice : String) (resp : Response) :
    JsAmt :=
  let a1 : JsAmt :=
    match w.decodeInvoice with
    | some f =>
      match f invoice with
      | .ok v => v
      | .error _ => .nullv
    | none => .nullv
  match a1 with
  | .nullv =>
    match resp.bodyAmountSats with
    | some v => if v ≠ 0 then .num v else .nullv
    | none => .nullv
  | x => x

/-- The decode events produced by one amount determination. -/
def decodeEvents (w : Wallet) (invoice : String) : List Ev :=
  match w.decodeInvoice with
  | some _ => [.decodeCall invoice]
  | none => []

/-- The step 5 gate: `some (amount, cap)` exactly when a cap is configured,
an amount was determined, and it exceeds the cap. -/
def capGate (maxAmt : Option Nat) (w : Wallet) (invoice : String)
    (resp : Response) : Option (Nat × Nat) :=
  match maxAmt with
  | some cap =>
    match determineAmount w invoice resp with
    | .num n => if n > cap then some (n, cap) else none
    | _ => none
  | none => none

/-- The decode events of the step 5 amount check (none when no cap is
configured, since the check is skipped entirely). -/
def capEvents (maxAmt : Option Nat) (w : Wallet) (invoice : String) :
    List Ev :=
  match maxAmt with
  | some _ => decodeEvents w invoice
  | none => []

/-- The events of the step 7 `onPayment` callback. -/
def onPayEvents (hasOnPayment : Bool) (w : Wallet) (invoice p : String) :
    List Ev :=
  if hasOnPayment then decodeEvents w invoice ++ [.onPaymentCall invoice p]
  else []

/-- Steps 1 through 9 of `l402Fetch`, after the cache preamble: bare
dispatch, challenge recognition, amount check, settlement, callback, cache
write, replay.  `k` is the index of the next network exchange and `tr` the
trace so far. -/
def fetchCore (a : FetchArgs) (env : Nat → Response) (now : Nat)
    (cache : Option CacheState) (k : Nat) (tr : List Ev) : FetchRes :=
  let method := effMethod a.method
  let resp := env k
  let tr := tr ++ [.fetchBare k]
  if resp.status ≠ 402 then ⟨.ok resp, cache, tr⟩
  else
    match a.wallet with
    | none => ⟨.ok resp, cache, tr⟩
    | some w =>
      match parseWwwAuthenticate resp.wwwAuthenticate with
      | none => ⟨.ok resp, cache, tr⟩
      | some ch =>
        let tr := tr ++ capEvents a.maxAmountSats w ch.invoice
        match capGate a.maxAmountSats w ch.invoice resp with
        | some (n, cap) => ⟨.error (.capExceeded n cap), cache, tr⟩
        | none =>
          let tr := tr ++ [.payCall ch.invoice]
          match w.payInvoice ch.invoice with
          | .error _ => ⟨.error .payFailed, cache, tr⟩
          | .ok pre =>
            match pre with
            | none => ⟨.error .noPreimage, cache, tr⟩
            | some p =>
              if p = "" then ⟨.error .noPreimage, cache, tr⟩
              else
                let tr := tr ++ onPayEvents a.hasOnPayment w ch.invoice p
                let cache :=
                  match cache with
                  | some c =>
                    some (c.set a.url ⟨ch.macaroon, p, some (now + 3600000)⟩
                      (some method) now)
                  | none => none
                let authHdr := "L402 " ++ ch.macaroon ++ ":" ++ p
                let tr := tr ++ [.fetchRetry (k + 1) authHdr]
                ⟨.ok (env (k + 1)), cache, tr⟩

/-- Outcome of the cache preamble (step 0). -/
inductive Phase1 where
  | early (r : FetchRes)
  | toBare (cache : Option CacheState) (k : Nat) (tr : List Ev)

/-- Step 0 of `l402Fetch`: try a cached credential; on a 401/402 response
invalidate it and fall through to the bare exchange. -/
def phase1 (a : FetchArgs) (env : Nat → Response) (now : Nat) : Phase1 :=
  let method := effMethod a.method
  match a.cache with
  | none => .toBare none 0 []
  | some c =>
    match c.get a.url (some method) now with
    | (none, c1) => .toBare (some c1) 0 []
    | (some cred, c1) =>
      let authHdr := "L402 " ++ cred.macaroon ++ ":" ++ cred.preimage
      let r0 := env 0
      let tr := [Ev.fetchCached 0 authHdr]
      if r0.status ≠ 401 ∧ r0.status ≠ 402 then
        .early ⟨.ok r0, some c1, tr⟩
      else
        .toBare (some (c1.invalidate a.url (some method))) 1 tr

/-- `l402Fetch(url, opts)` as a function of the environment `env` (the
response to the `k`-th network exchange) and the clock `now`. -/
def l402Fetch (a : FetchArgs) (env : Nat → Response) (now : Nat) : FetchRes :=
  match phase1 a env now with
  | .early r => r
  | .toBare cache k tr => fetchCore a env now cache k tr

/-- Is an event a `payInvoice` call? -/
def isPayEv : Ev → Bool
  | .payCall _ => true
  | _ => false

/-- Is an event a replay exchange? -/
def isRetryEv : Ev → Bool
  | .fetchRetry _ _ => true
  | _ => false

/-- A sequence of cache `set` operations (method argument omitted). -/
def insertAll (st : CacheState) (xs : List (String × CredIn)) (now : Nat) :
    CacheState :=
  xs.foldl (fun s x => s.set x.1 x.2 none now) st

/-! ## Hex lemmas -/

theorem hexVal_hexDigit : ∀ h, h < 16 → hexVal (hexDigit h) = some h := by
  decide

theorem toLower_hexDigit : ∀ h, h < 16 → (hexDigit h).toLower = hexDigit h := by
  decide

theorem toLower_toUpper_hexDigit :
    ∀ h, h < 16 → ((hexDigit h).toUpper).toLower = hexDigit h := by
  decide

theorem hexChars_cons (b : Nat) (rest : List Nat) :
    hexChars (b :: rest) =
      hexDigit (b / 16 % 16) :: hexDigit (b % 16) :: hexChars rest := by
  simp [hexChars, hexByte]

theorem hexDecodeChars_hexChars (bs : List Nat) (hb : ∀ b ∈ bs, b < 256) :
    hexDecodeChars (hexChars bs) = bs := by
  induction bs with
  | nil => rfl
  | cons b rest ih =>
    have hb0 : b < 256 := hb b (List.mem_cons_self b rest)
    rw [hexChars_cons]
    rw [hexDecodeChars, hexVal_hexDigit _ (Nat.mod_lt _ (by omega)),
      hexVal_hexDigit _ (Nat.mod_lt _ (by omega))]
    have hbyte : 16 * (b / 16 % 16) + b % 16 = b := by omega
    simp only [hbyte, ih (fun x hx => hb x (List.mem_cons_of_mem _ hx))]

theorem map_toLower_hexChars (bs : List Nat) :
    (hexChars bs).map Char.toLower = hexChars bs := by
  induction bs with
  | nil => rfl
  | cons b rest ih =>
    rw [hexChars_cons]
    simp only [List.map_cons]
    rw [toLower_hexDigit _ (Nat.mod_lt _ (by omega)),
      toLower_hexDigit _ (Nat.mod_lt _ (by omega)), ih]

theorem map_toLower_toUpper_hexChars (bs : List Nat) :
    ((hexChars bs).map Char.toUpper).map Char.toLower = hexChars bs := by
  induction bs with
  | nil => rfl
  | cons b rest ih =>
    rw [hexChars_cons]
    simp only [List.map_cons]
    rw [toLower_toUpper_hexDigit _ (Nat.mod_lt _ (by omega)),
      toLower_toUpper_hexDigit _ (Nat.mod_lt _ (by omega)), ih]

theorem hexChars_injOn (bs cs : List Nat) (hb : ∀ b ∈ bs, b < 256)
    (hc : ∀ c ∈ cs, c < 256) (h : hexChars bs = hexChars cs) : bs = cs := by
  have := congrArg hexDecodeChars h
  rwa [hexDecodeChars_hexChars bs hb, hexDecodeChars_hexChars cs hc] at this

theorem hexVal_lt (c : Char) (v : Nat) (h : hexVal c = some v) : v < 16 := by
  unfold hexVal at h
  split_ifs at h with h1 h2 h3 <;> (try simp at h) <;> omega

/-- Every byte produced by `hexDecodeChars` is below 256. -/
theorem hexDecodeChars_lt (l : List Char) :
    ∀ b ∈ hexDecodeChars l, b < 256 := by
  have main : ∀ n (l : List Char), l.length ≤ n →
      ∀ b ∈ hexDecodeChars l, b < 256 := by
    intro n
    induction n with
    | zero =>
      intro l hl b hb
      have : l = [] := List.eq_nil_of_length_eq_zero (by omega)
      subst this
      simp [hexDecodeChars] at hb
    | succ n ih =>
      intro l hl b hb
      match l with
      | [] => simp [hexDecodeChars] at hb
      | [c] => simp [hexDecodeChars] at hb
      | c1 :: c2 :: rest =>
        rw [hexDecodeChars] at hb
        cases hv1 : hexVal c1 with
        | none => rw [hv1] at hb; simp at hb
        | some h1 =>
          cases hv2 : hexVal c2 with
          | none => rw [hv1, hv2] at hb; simp at hb
          | some h2 =>
            rw [hv1, hv2] at hb
            rcases List.mem_cons.mp hb with h3 | h3
            · have := hexVal_lt c1 h1 hv1
              have := hexVal_lt c2 h2 hv2
              omega
            · exact ih rest (by simp at hl; omega) b h3
  exact main l.length l (Nat.le_refl _)

/-- Every byte of a SHA-256 digest is below 256. -/
theorem sha256_lt (msg : List Nat) : ∀ b ∈ sha256 msg, b < 256 := by
  intro b hb
  unfold sha256 at hb
  simp only [List.mem_flatMap, wordBytes, List.mem_cons,
    List.not_mem_nil, or_false] at hb
  obtain ⟨w, _, hw⟩ := hb
  rcases hw with h | h | h | h <;> subst h <;>
    exact Nat.mod_lt _ (by norm_num)

/-- Kernel evaluation of the digest of the empty message. -/
theorem sha256_nil_eval :
    sha256 [] =
      [227, 176, 196, 66, 152, 252, 28, 20, 154, 251, 244, 200, 153, 111,
       185, 36, 39, 174, 65, 228, 100, 155, 147, 76, 164, 149, 153, 27, 120,
       82, 184, 85] := by
  decide

/-- Kernel evaluation of the digest of the single zero byte. -/
theorem sha256_byte0_eval :
    sha256 [0] =
      [110, 52, 11, 156, 255, 179, 122, 152, 156, 165, 68, 230, 187, 120,
       10, 44, 120, 144, 29, 63, 179, 55, 56, 118, 133, 17, 163, 6, 23, 175,
       160, 29] := by
  decide

/-! ## Claims C2 and C3: the Proof Verifier -/

theorem hexDecodeStr_hexEncodeStr (s : List Nat) (hs : ∀ b ∈ s, b < 256) :
    hexDecodeStr (hexEncodeStr s) = s := by
  unfold hexDecodeStr hexEncodeStr
  exact hexDecodeChars_hexChars s hs

theorem jsToLower_hexEncodeStr (s : List Nat) :
    jsToLower (hexEncodeStr s) = hexEncodeStr s := by
  unfold jsToLower hexEncodeStr
  simp only [map_toLower_hexChars]

/-- C2: for every byte string `s`, `verify(hex(s), Hash(s) as hex)` is true,
also with an uppercase-hex fingerprint (case-insensitive comparison); and for
distinct byte strings `s ≠ t` whose digests do not collide,
`verify(hex(s), Hash(t) as hex)` is false. -/
theorem c2_verifier_correctness (s t : List Nat) (hs : ∀ b ∈ s, b < 256)
    (ht : ∀ b ∈ t, b < 256) :
    verifyPreimage (hexEncodeStr s) (hexEncodeStr (sha256 s)) = true ∧
    verifyPreimage (hexEncodeStr s)
      (jsToUpper (hexEncodeStr (sha256 s))) = true ∧
    (s ≠ t → sha256 s ≠ sha256 t →
      verifyPreimage (hexEncodeStr s) (hexEncodeStr (sha256 t)) = false) := by
  refine ⟨?_, ?_, ?_⟩
  · unfold verifyPreimage
    rw [hexDecodeStr_hexEncodeStr s hs, jsToLower_hexEncodeStr]
    exact beq_self_eq_true _
  · unfold verifyPreimage
    rw [hexDecodeStr_hexEncodeStr s hs]
    have : jsToLower (jsToUpper (hexEncodeStr (sha256 s))) =
        hexEncodeStr (sha256 s) := by
      unfold jsToLower jsToUpper hexEncodeStr
      simp only [map_toLower_toUpper_hexChars]
    rw [this]
    exact beq_self_eq_true _
  · intro _ hne
    unfold verifyPreimage
    rw [hexDecodeStr_hexEncodeStr s hs, jsToLower_hexEncodeStr]
    have hns : hexEncodeStr (sha256 s) ≠ hexEncodeStr (sha256 t) := by
      intro hEq
      apply hne
      unfold hexEncodeStr at hEq
      have h2 : hexChars (sha256 s) = hexChars (sha256 t) :=
        congrArg String.data hEq
      exact hexChars_injOn _ _ (sha256_lt s) (sha256_lt t) h2
    simpa [beq_eq_false_iff_ne] using hns

/-- Witness for C2 at `s = [0]`, `t = []`. -/
theorem c2_witness :
    verifyPreimage (hexEncodeStr [0]) (hexEncodeStr (sha256 [0])) = true ∧
    verifyPreimage (hexEncodeStr [0])
      (jsToUpper (hexEncodeStr (sha256 [0]))) = true ∧
    verifyPreimage (hexEncodeStr [0]) (hexEncodeStr (sha256 [])) = false := by
  have h := c2_verifier_correctness [0] [] (by decide) (by decide)
  refine ⟨h.1, h.2.1, h.2.2 (by decide) ?_⟩
  rw [sha256_nil_eval, sha256_byte0_eval]
  decide

/-- C3 counterexample: the claim "every secret that is not well-formed hex
verifies to false" fails — Node hex decoding silently truncates, so the
non-hex secret "zz" decodes to the empty byte string, and against the hex
digest of the empty byte string it verifies true. -/
theorem c3_counterexample :
    isWellFormedHex "zz" = false ∧
    verifyPreimage "zz"
      "e3b0c44298fc1c149afbf4c8996fb92427ae41e4649b934ca495991b7852b855" =
      true := by
  refine ⟨by decide, ?_⟩
  unfold verifyPreimage hexDecodeStr
  rw [show hexDecodeChars "zz".data = [] from by decide, sha256_nil_eval]
  decide

/-- C3 (amended): verification is a total boolean function over arbitrary
string input, but a malformed secret is not rejected: it behaves exactly as
its longest decodable prefix (lenient Node hex decoding), so the result is
false only when the digest of that prefix does not match. -/
theorem c3_amended (s f : String) (h : isWellFormedHex s = false) :
    verifyPreimage s f = verifyPreimage (hexEncodeStr (hexDecodeStr s)) f := by
  unfold verifyPreimage
  rw [hexDecodeStr_hexEncodeStr (hexDecodeStr s)
    (by unfold hexDecodeStr; exact hexDecodeChars_lt s.data)]

/-- Witness for the amended C3 at the malformed secret "zz". -/
theorem c3_witness :
    isWellFormedHex "zz" = false ∧
    verifyPreimage "zz" "00" =
      verifyPreimage (hexEncodeStr (hexDecodeStr "zz")) "00" :=
  ⟨by decide, c3_amended "zz" "00" (by decide)⟩

/-! ## Map lemmas -/

theorem mapGet_eq_none {β : Type} (l : List (String × β)) (k : String)
    (h : ∀ p ∈ l, p.1 ≠ k) : mapGet l k = none := by
  induction l with
  | nil => rfl
  | cons p rest ih =>
    rw [mapGet]
    rw [if_neg (h p (List.mem_cons_self p rest))]
    exact ih (fun q hq => h q (List.mem_cons_of_mem _ hq))

theorem mapGet_of_mem_nodup {β : Type} (l : List (String × β)) (k : String)
    (v : β) (hmem : (k, v) ∈ l) (hnd : (l.map Prod.fst).Nodup) :
    mapGet l k = some v := by
  induction l with
  | nil => simp at hmem
  | cons p rest ih =>
    rw [List.map_cons, List.nodup_cons] at hnd
    rcases List.mem_cons.mp hmem with h | h
    · subst h
      rw [mapGet, if_pos rfl]
    · have hne : p.1 ≠ k := by
        intro hEq
        exact hnd.1 (hEq ▸ List.mem_map_of_mem Prod.fst h)
      rw [mapGet, if_neg hne]
      exact ih h hnd.2

theorem mapSet_not_mem {β : Type} (k : String) (v : β) :
    ∀ (l : List (String × β)), (∀ p ∈ l, p.1 ≠ k) →
      mapSet l k v = l ++ [(k, v)] := by
  intro l h
  unfold mapSet
  rw [if_neg]
  simp only [List.any_eq_true, decide_eq_true_eq]
  rintro ⟨p, hp, hpk⟩
  exact h p hp hpk

theorem mapGet_replace_self {β : Type} (k : String) (v : β) :
    ∀ (l : List (String × β)), (∃ p ∈ l, p.1 = k) →
      mapGet (l.map (fun p => if p.1 = k then (k, v) else p)) k = some v := by
  intro l
  induction l with
  | nil => rintro ⟨p, hp, _⟩; simp at hp
  | cons q rest ih =>
    rintro ⟨p, hp, hpk⟩
    by_cases hq1 : q.1 = k
    · rw [List.map_cons, if_pos hq1, mapGet, if_pos rfl]
    · rw [List.map_cons, if_neg hq1, mapGet, if_neg hq1]
      apply ih
      rcases List.mem_cons.mp hp with h1 | h1
      · exact absurd (h1 ▸ hpk) hq1
      · exact ⟨p, h1, hpk⟩

theorem mapGet_append_single {β : Type} (k : String) (v : β) :
    ∀ (l : List (String × β)), (∀ p ∈ l, p.1 ≠ k) →
      mapGet (l ++ [(k, v)]) k = some v := by
  intro l
  induction l with
  | nil => intro _; simp [mapGet]
  | cons q rest ih =>
    intro h
    rw [List.cons_append, mapGet, if_neg (h q (List.mem_cons_self q rest))]
    exact ih (fun p hp => h p (List.mem_cons_of_mem _ hp))

theorem mapGet_mapSet_self {β : Type} (l : List (String × β)) (k : String)
    (v : β) : mapGet (mapSet l k v) k = some v := by
  unfold mapSet
  split_ifs with h
  · simp only [List.any_eq_true, decide_eq_true_eq] at h
    exact mapGet_replace_self k v l h
  · simp only [List.any_eq_true, decide_eq_true_eq] at h
    push_neg at h
    exact mapGet_append_single k v l h

theorem mapGet_map_replace_ne {β : Type} (k k2 : String) (v : β)
    (h : k ≠ k2) :
    ∀ (l : List (String × β)),
      mapGet (l.map (fun p => if p.1 = k then (k, v) else p)) k2 =
        mapGet l k2 := by
  intro l
  induction l with
  | nil => rfl
  | cons q rest ih =>
    by_cases hq1 : q.1 = k
    · rw [List.map_cons, if_pos hq1, mapGet, mapGet, if_neg h,
        if_neg (hq1 ▸ h)]
      exact ih
    · rw [List.map_cons, if_neg hq1, mapGet, mapGet]
      by_cases hq2 : q.1 = k2
      · rw [if_pos hq2, if_pos hq2]
      · rw [if_neg hq2, if_neg hq2]
        exact ih

theorem mapGet_append_single_ne {β : Type} (k k2 : String) (v : β)
    (h : k ≠ k2) :
    ∀ (l : List (String × β)),
      mapGet (l ++ [(k, v)]) k2 = mapGet l k2 := by
  intro l
  induction l with
  | nil => simp [mapGet, h]
  | cons q rest ih =>
    rw [List.cons_append, mapGet, mapGet]
    by_cases hq2 : q.1 = k2
    · rw [if_pos hq2, if_pos hq2]
    · rw [if_neg hq2, if_neg hq2]
      exact ih

theorem mapGet_mapSet_ne {β : Type} (l : List (String × β)) (k k2 : String)
    (v : β) (h : k ≠ k2) : mapGet (mapSet l k v) k2 = mapGet l k2 := by
  unfold mapSet
  split_ifs
  · exact mapGet_map_replace_ne k k2 v h l
  · exact mapGet_append_single_ne k k2 v h l

theorem mapSet_length_le {β : Type} (l : List (String × β)) (k : String)
    (v : β) : (mapSet l k v).length ≤ l.length + 1 := by
  unfold mapSet
  split_ifs
  · simp
  · simp

theorem mapGet_filter {β : Type} (l : List (String × β))
    (P : String × β → Bool) (k : String)
    (hnd : (l.map Prod.fst).Nodup) :
    mapGet (l.filter P) k =
      match mapGet l k with
      | some v => if P (k, v) then some v else none
      | none => none := by
  induction l with
  | nil => rfl
  | cons p rest ih =>
    rw [List.map_cons, List.nodup_cons] at hnd
    by_cases hk : p.1 = k
    · have hp : p = (k, p.2) := by
        cases p
        simpa using hk
      rw [mapGet, if_pos hk]
      by_cases hP : P p
      · rw [List.filter_cons_of_pos hP, mapGet, if_pos hk]
        rw [hp] at hP ⊢
        simp [hP]
      · rw [List.filter_cons_of_neg hP]
        have : mapGet (rest.filter P) k = none := by
          apply mapGet_eq_none
          intro q hq
          intro hqk
          apply hnd.1
          rw [hk, ← hqk]
          exact List.mem_map_of_mem Prod.fst (List.mem_of_mem_filter hq)
        rw [this, hp] at *
        simp only [Bool.not_eq_true] at hP
        simp [hP]
    · rw [mapGet, if_neg hk]
      by_cases hP : P p
      · rw [List.filter_cons_of_pos hP, mapGet, if_neg hk]
        exact ih hnd.2
      · rw [List.filter_cons_of_neg hP]
        exact ih hnd.2

/-! ## Claims C8, C9, C10: the credential cache -/

/-- While the cache stays below capacity and all inserted keys are fresh and
distinct, `insertAll` appends the entries in insertion order. -/
theorem insertAll_below_capacity (now : Nat) :
    ∀ (xs : List (String × CredIn)) (st : CacheState),
      st.entries.length + xs.length ≤ st.maxSize →
      (st.entries.map Prod.fst ++
        xs.map (fun x => cacheKey x.1 none)).Nodup →
      (insertAll st xs now).entries =
        st.entries ++ xs.map (fun x =>
          (cacheKey x.1 none,
           (⟨x.2.macaroon, x.2.preimage,
             effectiveExpiry x.2 st.defaultTtlMs now, now⟩ : CacheEntry))) ∧
      (insertAll st xs now).maxSize = st.maxSize ∧
      (insertAll st xs now).defaultTtlMs = st.defaultTtlMs := by
  intro xs
  induction xs with
  | nil => intro st _ _; exact ⟨by simp [insertAll], rfl, rfl⟩
  | cons x rest ih =>
    intro st hlen hnd
    have hndParts := List.nodup_append.mp hnd
    have hfresh : ∀ p ∈ st.entries, p.1 ≠ cacheKey x.1 none := by
      intro p hp hpk
      exact hndParts.2.2 (hpk ▸ List.mem_map_of_mem Prod.fst hp)
        (by simp)
    have hx : (st.set x.1 x.2 none now) =
        { st with entries := st.entries ++
            [(cacheKey x.1 none,
              ⟨x.2.macaroon, x.2.preimage,
               effectiveExpiry x.2 st.defaultTtlMs now, now⟩)] } := by
      unfold CacheState.set
      rw [if_neg (by simp at hlen ⊢; omega)]
      simp only [mapSet_not_mem _ _ _ hfresh]
    have hih := ih { st with entries := st.entries ++
        [(cacheKey x.1 none,
          ⟨x.2.macaroon, x.2.preimage,
           effectiveExpiry x.2 st.defaultTtlMs now, now⟩)] }
      (by simp at hlen ⊢; omega)
      (by
        simp only [List.map_append, List.map_cons] at hnd ⊢
        simp only [List.map, List.append_assoc]
        simpa using hnd)
    have hfold : insertAll st (x :: rest) now =
        insertAll (st.set x.1 x.2 none now) rest now := rfl
    rw [hfold, hx]
    obtain ⟨h1, h2, h3⟩ := hih
    refine ⟨?_, by simpa using h2, by simpa using h3⟩
    rw [h1]
    simp

theorem set_entries (st : CacheState) (url : String) (cred : CredIn)
    (method : Option String) (now : Nat) :
    (st.set url cred method now).entries =
      mapSet (if st.entries.length ≥ st.maxSize then st.entries.tail
              else st.entries)
        (cacheKey url method)
        ⟨cred.macaroon, cred.preimage,
         effectiveExpiry cred st.defaultTtlMs now, now⟩ := by
  unfold CacheState.set
  cases h : st.entries with
  | nil => simp [h]
  | cons p rest =>
    by_cases hge : st.entries.length ≥ st.maxSize <;> simp [h, hge] at *

theorem set_maxSize (st : CacheState) (url : String) (cred : CredIn)
    (method : Option String) (now : Nat) :
    (st.set url cred method now).maxSize = st.maxSize := rfl

theorem set_defaultTtlMs (st : CacheState) (url : String) (cred : CredIn)
    (method : Option String) (now : Nat) :
    (st.set url cred method now).defaultTtlMs = st.defaultTtlMs := rfl

/-- C8: inserting `maxSize + 1` entries under distinct keys with no expiry
into a fresh cache evicts exactly the first-inserted entry (insertion order,
not access order): `get` on the first key is absent and `get` on each of the
other `maxSize` keys still returns its credential. -/
theorem c8_capacity_eviction (m ttl now : Nat) (x0 : String × CredIn)
    (rest : List (String × CredIn)) (hm : 0 < m) (httl : 0 < ttl)
    (hlen : rest.length = m)
    (hnd : ((x0 :: rest).map (fun x => cacheKey x.1 none)).Nodup)
    (hexp : ∀ x ∈ x0 :: rest, x.2.expiresAt = none) :
    ((insertAll (mkCache (some m) (some ttl)) (x0 :: rest) now).get
        x0.1 none now).1 = none ∧
    ∀ x ∈ rest,
      ((insertAll (mkCache (some m) (some ttl)) (x0 :: rest) now).get
          x.1 none now).1 = some ⟨x.2.macaroon, x.2.preimage⟩ := by
  have hm0 : m ≠ 0 := by omega
  have httl0 : ttl ≠ 0 := by omega
  have hes : (mkCache (some m) (some ttl)).entries = [] := by
    simp [mkCache]
  have hms : (mkCache (some m) (some ttl)).maxSize = m := by
    simp [mkCache, hm0]
  have hts : (mkCache (some m) (some ttl)).defaultTtlMs = ttl := by
    simp [mkCache, httl0]
  rcases rest.eq_nil_or_concat with hre | ⟨ys, z, hre⟩
  · rw [hre] at hlen; simp at hlen; omega
  subst hre
  rw [List.concat_eq_append] at *
  have hylen : ys.length + 1 = m := by simpa using hlen
  have hfillPre := insertAll_below_capacity now (x0 :: ys)
    (mkCache (some m) (some ttl))
    (by rw [hes, hms]; simp; omega)
    (by
      rw [hes]
      simp only [List.map_nil, List.nil_append]
      exact List.Nodup.sublist
        ((List.cons_sublist_cons.mpr (List.sublist_append_left ys [z])).map _)
        hnd)
  obtain ⟨hA1, hA2, hA3⟩ := hfillPre
  rw [hes, hts] at hA1
  rw [hms] at hA2
  rw [hts] at hA3
  simp only [List.nil_append] at hA1
  have hsplit : insertAll (mkCache (some m) (some ttl))
      (x0 :: (ys ++ [z])) now =
    (insertAll (mkCache (some m) (some ttl)) (x0 :: ys) now).set
      z.1 z.2 none now := by
    unfold insertAll
    rw [show x0 :: (ys ++ [z]) = (x0 :: ys) ++ [z] from by simp,
      List.foldl_append]
    rfl
  have hALen : (insertAll (mkCache (some m) (some ttl))
      (x0 :: ys) now).entries.length = m := by
    rw [hA1]; simp; omega
  have hfreshz : ∀ p ∈ (insertAll (mkCache (some m) (some ttl))
      (x0 :: ys) now).entries.tail, p.1 ≠ cacheKey z.1 none := by
    intro p hp hpk
    have hp2 : p ∈ (insertAll (mkCache (some m) (some ttl))
        (x0 :: ys) now).entries := List.mem_of_mem_tail hp
    rw [hA1] at hp2
    simp only [List.mem_map] at hp2
    obtain ⟨y, hy, rfl⟩ := hp2
    simp only [List.map_cons, List.map_append, List.nodup_cons,
      List.nodup_append] at hnd
    simp only [] at hpk
    rcases List.mem_cons.mp hy with h1 | h1
    · subst h1
      apply hnd.1
      simp only [List.mem_append, List.mem_cons]
      right
      left
      exact hpk
    · exact hnd.2.2.2 (List.mem_map_of_mem _ h1) (by simp [hpk])
  have hfinal : (insertAll (mkCache (some m) (some ttl))
      (x0 :: (ys ++ [z])) now).entries =
      (ys.map (fun x =>
        (cacheKey x.1 none,
         (⟨x.2.macaroon, x.2.preimage, effectiveExpiry x.2 ttl now,
           now⟩ : CacheEntry)))) ++
        [(cacheKey z.1 none,
          ⟨z.2.macaroon, z.2.preimage, effectiveExpiry z.2 ttl now, now⟩)] := by
    rw [hsplit, set_entries]
    rw [if_pos (by rw [hALen, hA2])]
    rw [hA3]
    rw [mapSet_not_mem _ _ _ hfreshz]
    rw [hA1]
    simp
  constructor
  · unfold CacheState.get
    rw [hfinal]
    have hnone : mapGet ((ys.map (fun x =>
        (cacheKey x.1 none,
         (⟨x.2.macaroon, x.2.preimage, effectiveExpiry x.2 ttl now,
           now⟩ : CacheEntry)))) ++
        [(cacheKey z.1 none,
          ⟨z.2.macaroon, z.2.preimage, effectiveExpiry z.2 ttl now, now⟩)])
        (cacheKey x0.1 none) = none := by
      apply mapGet_eq_none
      intro p hp
      simp only [List.mem_append, List.mem_map, List.mem_singleton] at hp
      simp only [List.map_cons, List.map_append, List.nodup_cons] at hnd
      rcases hp with ⟨y, hy, rfl⟩ | rfl
      · intro hEq
        exact hnd.1 (by
          rw [← hEq]
          simp only [List.mem_append]
          exact Or.inl (List.mem_map_of_mem _ hy))
      · intro hEq
        exact hnd.1 (by
          rw [← hEq]
          simp only [List.mem_append]
          exact Or.inr (by simp))
    simp [hnone]
  · intro x hx
    unfold CacheState.get
    rw [hfinal]
    have hxexp : x.2.expiresAt = none :=
      hexp x (List.mem_cons_of_mem _ hx)
    have hxeff : effectiveExpiry x.2 ttl now = now + ttl := by
      simp [effectiveExpiry, hxexp]
    have hmemx : (cacheKey x.1 none,
        (⟨x.2.macaroon, x.2.preimage, effectiveExpiry x.2 ttl now,
          now⟩ : CacheEntry)) ∈
        ((ys.map (fun x =>
          (cacheKey x.1 none,
           (⟨x.2.macaroon, x.2.preimage, effectiveExpiry x.2 ttl now,
             now⟩ : CacheEntry)))) ++
          [(cacheKey z.1 none,
            ⟨z.2.macaroon, z.2.preimage, effectiveExpiry z.2 ttl now,
             now⟩)]) := by
      simp only [List.mem_append, List.mem_map, List.mem_singleton]
      rcases List.mem_append.mp hx with hxy | hxz
      · exact Or.inl ⟨x, hxy, rfl⟩
      · simp only [List.mem_singleton] at hxz
        subst hxz
        exact Or.inr rfl
    have hndFinal : (List.map Prod.fst
        ((List.map (fun (x : String × CredIn) =>
          (cacheKey x.1 none,
           (⟨x.2.macaroon, x.2.preimage, effectiveExpiry x.2 ttl now,
             now⟩ : CacheEntry))) ys) ++
         [(cacheKey z.1 none,
           ⟨z.2.macaroon, z.2.preimage, effectiveExpiry z.2 ttl now,
            now⟩)])).Nodup := by
      simp only [List.map_cons, List.map_append, List.nodup_cons] at hnd
      have h2 := hnd.2
      have heq : List.map Prod.fst
          ((List.map (fun (x : String × CredIn) =>
            (cacheKey x.1 none,
             (⟨x.2.macaroon, x.2.preimage, effectiveExpiry x.2 ttl now,
               now⟩ : CacheEntry))) ys) ++
           [(cacheKey z.1 none,
             ⟨z.2.macaroon, z.2.preimage, effectiveExpiry z.2 ttl now,
              now⟩)]) =
          List.map (fun x => cacheKey x.1 none) ys ++
            [cacheKey z.1 none] := by
        simp
      rw [heq]
      simpa using h2
    have hsome := mapGet_of_mem_nodup _ _ _ hmemx hndFinal
    rw [hxeff] at hsome
    have hne : CacheState.expired
        ⟨x.2.macaroon, x.2.preimage, now + ttl, now⟩ now = false := by
      simp [CacheState.expired]
    simp [hsome, hne]

/-- Witness for C8: capacity 2, three inserts, first key evicted. -/
theorem c8_witness :
    ((insertAll (mkCache (some 2) (some 1000))
        [("http://h/a", ⟨"m0", "p0", none⟩),
         ("http://h/b", ⟨"m1", "p1", none⟩),
         ("http://h/c", ⟨"m2", "p2", none⟩)] 0).get
      "http://h/a" none 0).1 = none ∧
    ((insertAll (mkCache (some 2) (some 1000))
        [("http://h/a", ⟨"m0", "p0", none⟩),
         ("http://h/b", ⟨"m1", "p1", none⟩),
         ("http://h/c", ⟨"m2", "p2", none⟩)] 0).get
      "http://h/b" none 0).1 = some ⟨"m1", "p1"⟩ := by
  have h := c8_capacity_eviction 2 1000 0
    ("http://h/a", ⟨"m0", "p0", none⟩)
    [("http://h/b", ⟨"m1", "p1", none⟩), ("http://h/c", ⟨"m2", "p2", none⟩)]
    (by decide) (by decide) (by decide) (by decide) (by decide)
  exact ⟨h.1, h.2 ("http://h/b", ⟨"m1", "p1", none⟩) (by decide)⟩

theorem mapGet_mapDelete_self {β : Type} (l : List (String × β))
    (k : String) : mapGet (mapDelete l k) k = none := by
  apply mapGet_eq_none
  intro p hp
  have := List.of_mem_filter hp
  simpa using this

/-- C9: an entry whose `expiresAt` lies in the past is absent from `get` and
is removed as a side effect; an entry inserted with a past nonzero
`expiresAt` is never returned; `cleanup` removes exactly the expired entries;
an unexpired entry is returned by `get` with the state unchanged. -/
theorem c9_expiry_semantics (st : CacheState) (url : String)
    (method : Option String) (now : Nat)
    (hnd : (st.entries.map Prod.fst).Nodup) :
    (∀ e, mapGet st.entries (cacheKey url method) = some e →
      CacheState.expired e now = true →
      (st.get url method now).1 = none ∧
      mapGet (st.get url method now).2.entries (cacheKey url method) =
        none) ∧
    (∀ cred t, cred.expiresAt = some t → t ≠ 0 → t < now →
      ((st.set url cred method now).get url method now).1 = none) ∧
    (∀ k e, mapGet st.entries k = some e →
      mapGet (st.cleanup now).entries k =
        (if CacheState.expired e now then none else some e)) ∧
    (∀ e, mapGet st.entries (cacheKey url method) = some e →
      CacheState.expired e now = false →
      (st.get url method now).1 = some ⟨e.macaroon, e.preimage⟩ ∧
      (st.get url method now).2 = st) := by
  refine ⟨?_, ?_, ?_, ?_⟩
  · intro e hsome hexp
    constructor
    · simp [CacheState.get, hsome, hexp]
    · simp [CacheState.get, hsome, hexp, mapGet_mapDelete_self]
  · intro cred t hct ht0 htn
    have heff : effectiveExpiry cred st.defaultTtlMs now = t := by
      simp [effectiveExpiry, hct, ht0]
    have hme := mapGet_mapSet_self
      (if st.entries.length ≥ st.maxSize then st.entries.tail
       else st.entries)
      (cacheKey url method)
      (⟨cred.macaroon, cred.preimage,
        effectiveExpiry cred st.defaultTtlMs now, now⟩ : CacheEntry)
    have hexp : CacheState.expired
        (⟨cred.macaroon, cred.preimage,
          effectiveExpiry cred st.defaultTtlMs now, now⟩ : CacheEntry) now =
        true := by
      rw [heff]
      simp [CacheState.expired]
      omega
    simp [CacheState.get, set_entries, hme, hexp]
  · intro k e hsome
    have := mapGet_filter st.entries
      (fun p => ¬ CacheState.expired p.2 now) k hnd
    rw [hsome] at this
    simp only [CacheState.cleanup]
    rw [this]
    by_cases hexp : CacheState.expired e now <;> simp [hexp]
  · intro e hsome hnexp
    constructor
    · simp [CacheState.get, hsome, hnexp]
    · simp [CacheState.get, hsome, hnexp]

/-- Witness for C9 on a two-entry cache, one expired and one live. -/
theorem c9_witness :
    ((⟨[("http://h/a", ⟨"ma", "pa", 5, 0⟩),
         ("http://h/b", ⟨"mb", "pb", 50, 0⟩)], 10, 1000⟩ :
        CacheState).get "http://h/a" none 10).1 = none ∧
    (mapGet (((⟨[("http://h/a", ⟨"ma", "pa", 5, 0⟩),
         ("http://h/b", ⟨"mb", "pb", 50, 0⟩)], 10, 1000⟩ :
        CacheState).get "http://h/a" none 10).2.entries)
       (cacheKey "http://h/a" none) = none) ∧
    mapGet ((⟨[("http://h/a", ⟨"ma", "pa", 5, 0⟩),
         ("http://h/b", ⟨"mb", "pb", 50, 0⟩)], 10, 1000⟩ :
        CacheState).cleanup 10).entries "http://h/a" = none ∧
    (((⟨[("http://h/a", ⟨"ma", "pa", 5, 0⟩),
         ("http://h/b", ⟨"mb", "pb", 50, 0⟩)], 10, 1000⟩ :
        CacheState).get "http://h/b" none 10).1 = some ⟨"mb", "pb"⟩) := by
  have h := c9_expiry_semantics
    (⟨[("http://h/a", ⟨"ma", "pa", 5, 0⟩),
       ("http://h/b", ⟨"mb", "pb", 50, 0⟩)], 10, 1000⟩ : CacheState)
    "http://h/a" none 10 (by decide)
  have h2 := c9_expiry_semantics
    (⟨[("http://h/a", ⟨"ma", "pa", 5, 0⟩),
       ("http://h/b", ⟨"mb", "pb", 50, 0⟩)], 10, 1000⟩ : CacheState)
    "http://h/b" none 10 (by decide)
  refine ⟨(h.1 ⟨"ma", "pa", 5, 0⟩ (by decide) (by decide)).1,
    (h.1 ⟨"ma", "pa", 5, 0⟩ (by decide) (by decide)).2,
    ?_,
    (h2.2.2.2 ⟨"mb", "pb", 50, 0⟩ (by decide) (by decide)).1⟩
  have h3 := h.2.2.1 "http://h/a" ⟨"ma", "pa", 5, 0⟩ (by decide)
  rw [h3]
  decide

/-- C10 (implicit): the constructor always yields a positive capacity; `set`
at capacity deletes the oldest-inserted entry even when the key being written
is already present (an overwrite can evict an unrelated entry); and every
operation keeps the size bounded by `maxSize`. -/
theorem c10_overwrite_eviction :
    (∀ ms ttl, 0 < (mkCache ms ttl).maxSize) ∧
    (∀ (st : CacheState) url cred method now k0 e0 rest,
      st.entries = (k0, e0) :: rest →
      st.entries.length = st.maxSize →
      (st.entries.map Prod.fst).Nodup →
      k0 ≠ cacheKey url method →
      mapGet (st.set url cred method now).entries k0 = none) ∧
    (∀ (st : CacheState) url cred method now,
      0 < st.maxSize → st.entries.length ≤ st.maxSize →
      (st.set url cred method now).entries.length ≤ st.maxSize ∧
      (st.get url method now).2.entries.length ≤ st.maxSize ∧
      (st.invalidate url method).entries.length ≤ st.maxSize ∧
      (st.cleanup now).entries.length ≤ st.maxSize ∧
      st.clear.entries.length ≤ st.maxSize) := by
  refine ⟨?_, ?_, ?_⟩
  · intro ms ttl
    unfold mkCache
    match ms with
    | none => simp
    | some v =>
      by_cases hv : v = 0 <;> simp [hv] <;> omega
  · intro st url cred method now k0 e0 rest hhead hfull hndk hne
    rw [set_entries, if_pos (by omega)]
    rw [hhead]
    simp only [List.tail_cons]
    rw [mapGet_mapSet_ne _ _ _ _ (fun hEq => hne hEq.symm)]
    apply mapGet_eq_none
    intro p hp hpk
    rw [hhead] at hndk
    simp only [List.map_cons, List.nodup_cons] at hndk
    exact hndk.1 (hpk ▸ List.mem_map_of_mem Prod.fst hp)
  · intro st url cred method now hpos hbound
    refine ⟨?_, ?_, ?_, ?_, ?_⟩
    · rw [set_entries]
      by_cases hge : st.entries.length ≥ st.maxSize
      · rw [if_pos hge]
        have h1 := mapSet_length_le st.entries.tail (cacheKey url method)
          (⟨cred.macaroon, cred.preimage,
            effectiveExpiry cred st.defaultTtlMs now, now⟩ : CacheEntry)
        have h2 : st.entries.length ≠ 0 := by
          intro h0
          rw [List.length_eq_zero] at h0
          rw [h0] at hge
          simp at hge
          omega
        have := st.entries.length_tail
        omega
      · rw [if_neg hge]
        have := mapSet_length_le st.entries (cacheKey url method)
          (⟨cred.macaroon, cred.preimage,
            effectiveExpiry cred st.defaultTtlMs now, now⟩ : CacheEntry)
        omega
    · unfold CacheState.get
      cases hsome : mapGet st.entries (cacheKey url method) with
      | none => simp [hsome, hbound]
      | some e =>
        cases hexp : CacheState.expired e now with
        | true =>
          simp only [hsome, hexp, if_true]
          simp only [mapDelete]
          exact le_trans (List.length_filter_le _ _) hbound
        | false => simp [hsome, hexp, hbound]
    · simp only [CacheState.invalidate, mapDelete]
      exact le_trans (List.length_filter_le _ _) hbound
    · simp only [CacheState.cleanup]
      exact le_trans (List.length_filter_le _ _) hbound
    · simp [CacheState.clear]

/-- Witness for C10 at a full two-entry cache overwritten on its second
key. -/
theorem c10_witness :
    0 < (mkCache none none).maxSize ∧
    mapGet (((⟨[("http://h/a", ⟨"ma", "pa", 5, 0⟩),
        ("http://h/b", ⟨"mb", "pb", 50, 0⟩)], 2, 1000⟩ :
       CacheState).set "http://h/b" ⟨"mc", "pc", none⟩ none 0).entries)
      (cacheKey "http://h/a" none) = none ∧
    (((⟨[("http://h/a", ⟨"ma", "pa", 5, 0⟩),
        ("http://h/b", ⟨"mb", "pb", 50, 0⟩)], 2, 1000⟩ :
       CacheState).set "http://h/b" ⟨"mc", "pc", none⟩ none
       0).entries.length ≤ 2) := by
  have h := c10_overwrite_eviction
  refine ⟨h.1 none none, ?_, ?_⟩
  · exact h.2.1
      (⟨[("http://h/a", ⟨"ma", "pa", 5, 0⟩),
         ("http://h/b", ⟨"mb", "pb", 50, 0⟩)], 2, 1000⟩ : CacheState)
      "http://h/b" ⟨"mc", "pc", none⟩ none 0
      (cacheKey "http://h/a" none) ⟨"ma", "pa", 5, 0⟩
      [("http://h/b", ⟨"mb", "pb", 50, 0⟩)]
      (by decide) (by decide) (by decide) (by decide)
  · exact (h.2.2
      (⟨[("http://h/a", ⟨"ma", "pa", 5, 0⟩),
         ("http://h/b", ⟨"mb", "pb", 50, 0⟩)], 2, 1000⟩ : CacheState)
      "http://h/b" ⟨"mc", "pc", none⟩ none 0
      (by decide) (by decide)).1

/-! ## Claim C1: the server gate middleware -/

theorem mapSet_keys_nodup {β : Type} (l : List (String × β)) (k : String)
    (v : β) (hnd : (l.map Prod.fst).Nodup) :
    ((mapSet l k v).map Prod.fst).Nodup := by
  unfold mapSet
  split_ifs with h
  · have hsame : (l.map (fun p => if p.1 = k then (k, v) else p)).map
        Prod.fst = l.map Prod.fst := by
      rw [List.map_map]
      apply List.map_congr_left
      intro p _
      by_cases hp : p.1 = k <;> simp [hp]
    rw [hsame]
    exact hnd
  · rw [List.map_append]
    refine List.Nodup.append hnd (by simp) ?_
    intro a ha hb
    simp only [List.map_cons, List.map_nil, List.mem_singleton] at hb
    subst hb
    simp only [List.any_eq_true, decide_eq_true_eq] at h
    simp only [List.mem_map] at ha
    obtain ⟨p, hp, hpa⟩ := ha
    exact h ⟨p, hp, hpa⟩

/-- C1: the per-request gate transition.  A request whose header parses as a
Proof that verifies is admitted with the verified payment facts attached and
no state mutation; any other request (no header, malformed header, or
verification failure) — given that `createInvoice` succeeds — is answered
with status 402 carrying the encoded challenge header, and a
PendingObligation keyed by the new fingerprint is recorded; a verification
failure is handled identically to an absent header. -/
theorem c1_gate_transition (cfg : MwConfig)
    (invoiceRes : Except Unit InvoiceResult) (now : Nat)
    (auth : Option String) (pending : List (String × PendingEntry))
    (hnd : (pending.map Prod.fst).Nodup) :
    (∀ pr, parseAuthHeader auth = some pr →
      verifyPreimage pr.preimage (jsToLower pr.macaroon) = true →
      l402Middleware cfg invoiceRes now auth pending =
        (.admitted ⟨jsToLower pr.macaroon, jsToLower pr.preimage,
          cfg.amountSats⟩, pending)) ∧
    ((∀ pr, parseAuthHeader auth = some pr →
        verifyPreimage pr.preimage (jsToLower pr.macaroon) = false) →
      ∀ r, invoiceRes = .ok r →
        (l402Middleware cfg invoiceRes now auth pending).1 =
          .challenged 402
            (buildWwwAuthenticateHeader r.invoice r.paymentHash)
            ⟨"Payment Required", cfg.amountSats, mwDescription cfg,
             r.invoice, r.paymentHash⟩ ∧
        mapGet (l402Middleware cfg invoiceRes now auth pending).2
          r.paymentHash =
          some ⟨r.invoice, cfg.amountSats, now,
            cfg.expirySeconds * 1000⟩) ∧
    (∀ pr, parseAuthHeader auth = some pr →
      verifyPreimage pr.preimage (jsToLower pr.macaroon) = false →
      l402Middleware cfg invoiceRes now auth pending =
        l402Middleware cfg invoiceRes now none pending) := by
  refine ⟨?_, ?_, ?_⟩
  · intro pr hpr hv
    simp [l402Middleware, hpr, hv]
  · intro hfail r hok
    subst hok
    have hbody : l402Middleware cfg (.ok r) now auth pending =
        (.challenged 402
          (buildWwwAuthenticateHeader r.invoice r.paymentHash)
          ⟨"Payment Required", cfg.amountSats, mwDescription cfg, r.invoice,
           r.paymentHash⟩,
         if (mapSet pending r.paymentHash
              ⟨r.invoice, cfg.amountSats, now,
               cfg.expirySeconds * 1000⟩).length > 100
         then sweepPending now (mapSet pending r.paymentHash
              ⟨r.invoice, cfg.amountSats, now, cfg.expirySeconds * 1000⟩)
         else mapSet pending r.paymentHash
              ⟨r.invoice, cfg.amountSats, now,
               cfg.expirySeconds * 1000⟩) := by
      cases hpr : parseAuthHeader auth with
      | none => simp [l402Middleware, hpr]
      | some pr => simp [l402Middleware, hpr, hfail pr hpr]
    rw [hbody]
    refine ⟨rfl, ?_⟩
    have hget : mapGet (mapSet pending r.paymentHash
        ⟨r.invoice, cfg.amountSats, now, cfg.expirySeconds * 1000⟩)
        r.paymentHash =
        some ⟨r.invoice, cfg.amountSats, now, cfg.expirySeconds * 1000⟩ :=
      mapGet_mapSet_self _ _ _
    by_cases hlen : (mapSet pending r.paymentHash
        ⟨r.invoice, cfg.amountSats, now,
         cfg.expirySeconds * 1000⟩).length > 100
    · simp only [if_pos hlen]
      have hnd1 := mapSet_keys_nodup pending r.paymentHash
        (⟨r.invoice, cfg.amountSats, now,
          cfg.expirySeconds * 1000⟩ : PendingEntry) hnd
      unfold sweepPending
      rw [mapGet_filter _ _ _ hnd1, hget]
      simp
    · simp only [if_neg hlen]
      exact hget
  · intro pr hpr hv
    have hn : parseAuthHeader none = none := rfl
    simp [l402Middleware, hpr, hv, hn]

/-- The secret "00" verifies against the digest of the zero byte. -/
theorem verify_00_hash0 :
    verifyPreimage "00"
      (jsToLower
        "6e340b9cffb37a989ca544e6bb780a2c78901d3fb33738768511a30617afa01d") =
      true := by
  unfold verifyPreimage hexDecodeStr
  rw [show hexDecodeChars ("00" : String).data = [0] from by decide,
    sha256_byte0_eval]
  decide

/-- The secret "00" does not verify against the fingerprint "00". -/
theorem verify_00_00_false :
    verifyPreimage "00" (jsToLower "00") = false := by
  unfold verifyPreimage hexDecodeStr
  rw [show hexDecodeChars ("00" : String).data = [0] from by decide,
    sha256_byte0_eval]
  decide

/-- Witness for C1: one admitted request and one challenged request. -/
theorem c1_witness :
    l402Middleware ⟨25, none, 600⟩ (.ok ⟨"lnbc1", "abc123"⟩) 7
      (some ("L402 " ++
        "6e340b9cffb37a989ca544e6bb780a2c78901d3fb33738768511a30617afa01d" ++
        ":00")) [] =
      (.admitted
        ⟨jsToLower
          "6e340b9cffb37a989ca544e6bb780a2c78901d3fb33738768511a30617afa01d",
         jsToLower "00", 25⟩, []) ∧
    (l402Middleware ⟨25, none, 600⟩ (.ok ⟨"lnbc1", "abc123"⟩) 7
      (some "L402 00:00") []).1 =
      .challenged 402 (buildWwwAuthenticateHeader "lnbc1" "abc123")
        ⟨"Payment Required", 25, mwDescription ⟨25, none, 600⟩, "lnbc1",
         "abc123"⟩ ∧
    mapGet (l402Middleware ⟨25, none, 600⟩ (.ok ⟨"lnbc1", "abc123"⟩) 7
      (some "L402 00:00") []).2 "abc123" =
      some ⟨"lnbc1", 25, 7, 600000⟩ ∧
    l402Middleware ⟨25, none, 600⟩ (.ok ⟨"lnbc1", "abc123"⟩) 7
      (some "L402 00:00") [] =
      l402Middleware ⟨25, none, 600⟩ (.ok ⟨"lnbc1", "abc123"⟩) 7 none [] := by
  have hA := c1_gate_transition ⟨25, none, 600⟩ (.ok ⟨"lnbc1", "abc123"⟩) 7
    (some ("L402 " ++
      "6e340b9cffb37a989ca544e6bb780a2c78901d3fb33738768511a30617afa01d" ++
      ":00")) [] (by decide)
  have hB := c1_gate_transition ⟨25, none, 600⟩ (.ok ⟨"lnbc1", "abc123"⟩) 7
    (some "L402 00:00") [] (by decide)
  have hfailB : ∀ pr, parseAuthHeader (some "L402 00:00") = some pr →
      verifyPreimage pr.preimage (jsToLower pr.macaroon) = false := by
    intro pr hpr
    have h0 : parseAuthHeader (some "L402 00:00") = some ⟨"00", "00"⟩ := by
      decide
    rw [h0] at hpr
    rw [← Option.some.inj hpr]
    exact verify_00_00_false
  refine ⟨?_, (hB.2.1 hfailB ⟨"lnbc1", "abc123"⟩ rfl).1,
    (hB.2.1 hfailB ⟨"lnbc1", "abc123"⟩ rfl).2,
    hB.2.2 ⟨"00", "00"⟩ (by decide) verify_00_00_false⟩
  exact hA.1
    ⟨"6e340b9cffb37a989ca544e6bb780a2c78901d3fb33738768511a30617afa01d",
     "00"⟩ (by decide) verify_00_hash0

/-! ## Claim C7: challenge codec round trip -/

theorem toLower_eq_quote {c : Char} (h : c.toLower = '"') : c = '"' := by
  unfold Char.toLower at h
  simp only [] at h
  split_ifs at h with hr
  · exfalso
    have hv : (c.toNat + 32).isValidChar := Or.inl (by omega)
    rw [Char.ofNat, dif_pos hv] at h
    have h2 := congrArg Char.toNat h
    simp only [Char.toNat, Char.ofNatAux, UInt32.toNat,
      BitVec.toNat_ofNatLt] at h2
    have h4 : c.toNat + 32 = ('"' : Char).toNat := h2
    have h5 : ('"' : Char).toNat = 34 := by decide
    omega
  · exact h

theorem dropLitCI_self_append :
    ∀ (l r : List Char), dropLitCI l (l ++ r) = some r := by
  intro l
  induction l with
  | nil => intro r; rfl
  | cons a as ih =>
    intro r
    rw [List.cons_append, dropLitCI, if_pos rfl]
    exact ih r

theorem takeWhile_no_quote :
    ∀ (a r : List Char), (∀ c ∈ a, c ≠ '"') →
      (a ++ '"' :: r).takeWhile (fun c => c ≠ '"') = a := by
  intro a
  induction a with
  | nil => intro r _; simp [List.takeWhile]
  | cons c cs ih =>
    intro r h
    rw [List.cons_append, List.takeWhile_cons,
      if_pos (by simp [h c (List.mem_cons_self c cs)])]
    rw [ih r (fun d hd => h d (List.mem_cons_of_mem _ hd))]

theorem tryQuotedAt_success (lit a r : List Char) (ha : a ≠ [])
    (haq : ∀ c ∈ a, c ≠ '"') :
    tryQuotedAt lit (lit ++ (a ++ '"' :: r)) = some a := by
  unfold tryQuotedAt
  rw [dropLitCI_self_append]
  simp only [takeWhile_no_quote a r haq]
  rw [if_neg ha, if_neg (by simp)]

theorem findQuoted_here (l0 : Char) (lit' a r : List Char) (ha : a ≠ [])
    (haq : ∀ c ∈ a, c ≠ '"') :
    findQuoted (l0 :: lit') ((l0 :: lit') ++ (a ++ '"' :: r)) = some a := by
  have hcons : (l0 :: lit') ++ (a ++ '"' :: r) =
      l0 :: (lit' ++ (a ++ '"' :: r)) := rfl
  rw [hcons, findQuoted]
  have hTry : tryQuotedAt (l0 :: lit') (l0 :: (lit' ++ (a ++ '"' :: r))) =
      some a := by
    rw [← hcons]
    exact tryQuotedAt_success _ a r ha haq
  rw [hTry]

theorem findQuoted_skip (l0 : Char) (lit' : List Char) (c : Char)
    (s : List Char) (h : l0.toLower ≠ c.toLower) :
    findQuoted (l0 :: lit') (c :: s) = findQuoted (l0 :: lit') s := by
  rw [findQuoted]
  have hTry : tryQuotedAt (l0 :: lit') (c :: s) = none := by
    unfold tryQuotedAt
    rw [dropLitCI, if_neg h]
  rw [hTry]

theorem dropLitCI_quote_boundary :
    ∀ (l9 : List Char), (∀ c ∈ l9, c ≠ '"') →
    ∀ (q : List Char), (∀ c ∈ q, c ≠ '"') → ∀ (tr : List Char),
      dropLitCI (l9 ++ ['"']) (q ++ '"' :: tr) =
        if q.map Char.toLower = l9.map Char.toLower then some tr
        else none := by
  intro l9
  induction l9 with
  | nil =>
    intro _ q hq tr
    match q with
    | [] => simp [dropLitCI]
    | c :: q' =>
      rw [List.nil_append,
        show (c :: q') ++ '"' :: tr = c :: (q' ++ '"' :: tr) from rfl,
        dropLitCI]
      rw [if_neg (fun hEq => hq c (List.mem_cons_self c q')
        (toLower_eq_quote (by
          rw [show ('"' : Char).toLower = '"' from by decide] at hEq
          exact hEq.symm)))]
      rw [if_neg (by simp)]
  | cons a l9' ih =>
    intro hl q hq tr
    match q with
    | [] =>
      rw [List.nil_append,
        show (a :: l9') ++ ['"'] = a :: (l9' ++ ['"']) from rfl,
        dropLitCI]
      rw [if_neg (fun hEq => hl a (List.mem_cons_self a l9')
        (toLower_eq_quote (by
          rw [show ('"' : Char).toLower = '"' from by decide] at hEq
          exact hEq)))]
      rw [if_neg (by simp)]
    | c :: q' =>
      rw [show (a :: l9') ++ ['"'] = a :: (l9' ++ ['"']) from rfl,
        show (c :: q') ++ '"' :: tr = c :: (q' ++ '"' :: tr) from rfl,
        dropLitCI]
      by_cases h : a.toLower = c.toLower
      · rw [if_pos h,
          ih (fun d hd => hl d (List.mem_cons_of_mem _ hd)) q'
            (fun d hd => hq d (List.mem_cons_of_mem _ hd)) tr]
        by_cases h2 : q'.map Char.toLower = l9'.map Char.toLower
        · rw [if_pos h2, if_pos (by simp [h2, h.symm])]
        · rw [if_neg h2, if_neg (by
            intro hEq
            simp only [List.map_cons, List.cons.injEq] at hEq
            exact h2 hEq.2)]
      · rw [if_neg h, if_neg (by
          intro hEq
          simp only [List.map_cons, List.cons.injEq] at hEq
          exact h (hEq.1.symm))]

theorem macLit_split : ("macaroon=\"" : String).data =
    ("macaroon=" : String).data ++ ['"'] := by decide

theorem findQuoted_mac_skip (c : Char) (s : List Char)
    (h : c.toLower ≠ 'm') :
    findQuoted ("macaroon=\"" : String).data (c :: s) =
      findQuoted ("macaroon=\"" : String).data s := by
  rw [show ("macaroon=\"" : String).data =
    'm' :: ['a', 'c', 'a', 'r', 'o', 'o', 'n', '=', '"'] from by decide]
  exact findQuoted_skip 'm' _ c s (by
    rw [show ('m' : Char).toLower = 'm' from by decide]
    exact fun hEq => h hEq.symm)

theorem dropLitCI_mac_fail (q tr : List Char) (hq : ∀ c ∈ q, c ≠ '"')
    (hne : q.map Char.toLower ≠ ("macaroon=" : String).data) :
    dropLitCI ("macaroon=\"" : String).data (q ++ '"' :: tr) = none := by
  rw [macLit_split,
    dropLitCI_quote_boundary ("macaroon=" : String).data (by decide) q hq tr]
  rw [if_neg]
  intro hEq
  apply hne
  rw [hEq]
  decide

/-- Scanning for the macaroon field through the invoice payload `q` (no
quotes, not ending case-insensitively in "macaroon=") reaches the real
macaroon field and captures exactly `f`. -/
theorem findQuoted_mac_through (f : List Char) (hf : f ≠ [])
    (hfq : ∀ c ∈ f, c ≠ '"') :
    ∀ (q : List Char), (∀ c ∈ q, c ≠ '"') →
      ¬ (("macaroon=" : String).data <:+ q.map Char.toLower) →
      findQuoted ("macaroon=\"" : String).data
        (q ++ '"' :: ',' :: ' ' ::
          (("macaroon=\"" : String).data ++ (f ++ ['"']))) = some f := by
  intro q
  induction q with
  | nil =>
    intro _ _
    rw [List.nil_append]
    rw [findQuoted_mac_skip '"' _ (by decide)]
    rw [findQuoted_mac_skip ',' _ (by decide)]
    rw [findQuoted_mac_skip ' ' _ (by decide)]
    rw [show ("macaroon=\"" : String).data =
      'm' :: ['a', 'c', 'a', 'r', 'o', 'o', 'n', '=', '"'] from by decide]
    have := findQuoted_here 'm' ['a', 'c', 'a', 'r', 'o', 'o', 'n', '=', '"']
      f [] hf hfq
    simpa using this
  | cons c q' ih =>
    intro hq hsuf
    rw [show (c :: q') ++ '"' :: ',' :: ' ' ::
        (("macaroon=\"" : String).data ++ (f ++ ['"'])) =
      c :: (q' ++ '"' :: ',' :: ' ' ::
        (("macaroon=\"" : String).data ++ (f ++ ['"']))) from rfl]
    by_cases hc : c.toLower = 'm'
    · -- the head may start a case-insensitive match, but it cannot reach
      -- across the closing quote unless q itself spells "macaroon="
      rw [findQuoted]
      have hTry : tryQuotedAt ("macaroon=\"" : String).data
          (c :: (q' ++ '"' :: ',' :: ' ' ::
            (("macaroon=\"" : String).data ++ (f ++ ['"'])))) = none := by
        unfold tryQuotedAt
        rw [show c :: (q' ++ '"' :: ',' :: ' ' ::
            (("macaroon=\"" : String).data ++ (f ++ ['"']))) =
          (c :: q') ++ '"' :: (',' :: ' ' ::
            (("macaroon=\"" : String).data ++ (f ++ ['"']))) from rfl]
        rw [dropLitCI_mac_fail (c :: q') _ hq
          (fun hEq => hsuf (hEq ▸ List.suffix_refl _))]
      rw [hTry]
      exact ih (fun d hd => hq d (List.mem_cons_of_mem _ hd))
        (fun hs => hsuf (hs.trans (by
          rw [List.map_cons]
          exact List.suffix_cons _ _)))
    · rw [findQuoted_mac_skip c _ hc]
      exact ih (fun d hd => hq d (List.mem_cons_of_mem _ hd))
        (fun hs => hsuf (hs.trans (by
          rw [List.map_cons]
          exact List.suffix_cons _ _)))

theorem jsTrimChars_of_ends (l : List Char)
    (h1 : ∀ c, l.head? = some c → jsIsWs c = false)
    (h2 : ∀ c, l.getLast? = some c → jsIsWs c = false) :
    jsTrimChars l = l := by
  unfold jsTrimChars
  have hd : l.dropWhile jsIsWs = l := by
    cases l with
    | nil => rfl
    | cons a t =>
      rw [List.dropWhile_cons, if_neg]
      simp [h1 a rfl]
  rw [hd]
  have hrev : l.reverse.dropWhile jsIsWs = l.reverse := by
    cases hr : l.reverse with
    | nil => rfl
    | cons b r =>
      rw [List.dropWhile_cons, if_neg]
      have hb : l.getLast? = some b := by
        rw [← List.head?_reverse, hr]
        rfl
      simp [h2 b hb]
  rw [hrev, List.reverse_reverse]

/-- The character data of the encoded challenge header, in the associativity
form the parsing lemmas consume. -/
theorem build_data (p f : String) :
    (buildWwwAuthenticateHeader p f).data =
      'L' :: '4' :: '0' :: '2' :: ' ' ::
        (("invoice=\"" : String).data ++ (p.data ++ ('"' :: ',' :: ' ' ::
          (("macaroon=\"" : String).data ++ (f.data ++ ['"']))))) := by
  unfold buildWwwAuthenticateHeader
  simp only [String.data_append]
  simp [List.append_assoc]

/-- C7 (amended): the codec round-trips for non-empty `p` and `f` that
contain no quote character, provided the lowercased invoice does not end in
"macaroon=" (in which case the macaroon regex matches too early — see the
counterexample). -/
theorem c7_amended (p f : String) (hp : p ≠ "") (hf : f ≠ "")
    (hpq : ∀ c ∈ p.data, c ≠ '"') (hfq : ∀ c ∈ f.data, c ≠ '"')
    (hsuffix : ¬ (("macaroon=" : String).data <:+ p.data.map Char.toLower)) :
    parseWwwAuthenticate (some (buildWwwAuthenticateHeader p f)) =
      some ⟨p, f⟩ := by
  have hpd : p.data ≠ [] := by
    intro h0
    apply hp
    cases p with
    | mk d => simp at h0; simp [h0]
  have hfd : f.data ≠ [] := by
    intro h0
    apply hf
    cases f with
    | mk d => simp at h0; simp [h0]
  unfold parseWwwAuthenticate
  simp only []
  rw [if_neg (by rw [build_data]; simp)]
  have htrim : jsTrimChars (buildWwwAuthenticateHeader p f).data =
      (buildWwwAuthenticateHeader p f).data := by
    apply jsTrimChars_of_ends
    · intro c hc
      rw [build_data] at hc
      simp only [List.head?_cons, Option.some.injEq] at hc
      subst hc
      decide
    · intro c hc
      have hre : (buildWwwAuthenticateHeader p f).data =
          ('L' :: '4' :: '0' :: '2' :: ' ' ::
            (("invoice=\"" : String).data ++ p.data ++
              ('"' :: ',' :: ' ' :: ("macaroon=\"" : String).data) ++
              f.data)) ++ ['"'] := by
        rw [build_data]
        simp [List.append_assoc]
      rw [hre, List.getLast?_concat] at hc
      simp only [Option.some.injEq] at hc
      subst hc
      decide
  rw [htrim, build_data]
  rw [if_pos (Or.inl (by simp [List.isPrefixOf]))]
  rw [show List.drop 5 ('L' :: '4' :: '0' :: '2' :: ' ' ::
      (("invoice=\"" : String).data ++ (p.data ++ ('"' :: ',' :: ' ' ::
        (("macaroon=\"" : String).data ++ (f.data ++ ['"'])))))) =
    ("invoice=\"" : String).data ++ (p.data ++ ('"' :: ',' :: ' ' ::
      (("macaroon=\"" : String).data ++ (f.data ++ ['"'])))) from rfl]
  have hinv : findQuoted ("invoice=\"" : String).data
      (("invoice=\"" : String).data ++ (p.data ++ ('"' :: ',' :: ' ' ::
        (("macaroon=\"" : String).data ++ (f.data ++ ['"']))))) =
      some p.data := by
    rw [show ("invoice=\"" : String).data =
      'i' :: ['n', 'v', 'o', 'i', 'c', 'e', '=', '"'] from by decide]
    exact findQuoted_here 'i' _ p.data _ hpd hpq
  have hmac : findQuoted ("macaroon=\"" : String).data
      (("invoice=\"" : String).data ++ (p.data ++ ('"' :: ',' :: ' ' ::
        (("macaroon=\"" : String).data ++ (f.data ++ ['"']))))) =
      some f.data := by
    rw [show ("invoice=\"" : String).data ++ (p.data ++ ('"' :: ',' :: ' ' ::
        (("macaroon=\"" : String).data ++ (f.data ++ ['"'])))) =
      'i' :: 'n' :: 'v' :: 'o' :: 'i' :: 'c' :: 'e' :: '=' :: '"' ::
        (p.data ++ ('"' :: ',' :: ' ' ::
          (("macaroon=\"" : String).data ++ (f.data ++ ['"']))))
      from rfl]
    rw [findQuoted_mac_skip 'i' _ (by decide)]
    rw [findQuoted_mac_skip 'n' _ (by decide)]
    rw [findQuoted_mac_skip 'v' _ (by decide)]
    rw [findQuoted_mac_skip 'o' _ (by decide)]
    rw [findQuoted_mac_skip 'i' _ (by decide)]
    rw [findQuoted_mac_skip 'c' _ (by decide)]
    rw [findQuoted_mac_skip 'e' _ (by decide)]
    rw [findQuoted_mac_skip '=' _ (by decide)]
    rw [findQuoted_mac_skip '"' _ (by decide)]
    exact findQuoted_mac_through f.data hfd hfq p.data hpq hsuffix
  rw [hinv, hmac]

/-- C7 counterexample: the round trip fails exactly as claimed-false.  With
an empty payment target the invoice regex (which requires a non-empty
capture) fails and decoding returns absent; and with a payment target ending
in "macaroon=" the macaroon regex matches too early and captures the wrong
field. -/
theorem c7_counterexample :
    (parseWwwAuthenticate (some (buildWwwAuthenticateHeader "" "a")) =
        none ∧
      none ≠ some (Challenge.mk "" "a")) ∧
    (parseWwwAuthenticate
        (some (buildWwwAuthenticateHeader "xmacaroon=" "ff")) =
        some ⟨"xmacaroon=", ", macaroon="⟩ ∧
      some (Challenge.mk "xmacaroon=" ", macaroon=") ≠
        some (Challenge.mk "xmacaroon=" "ff")) := by
  refine ⟨⟨by decide, by decide⟩, ⟨by decide, by decide⟩⟩

/-- Witness for the amended C7 at ordinary values. -/
theorem c7_witness :
    parseWwwAuthenticate
      (some (buildWwwAuthenticateHeader "lnbc250n1fake" "aabbccdd")) =
      some ⟨"lnbc250n1fake", "aabbccdd"⟩ :=
  c7_amended "lnbc250n1fake" "aabbccdd" (by decide) (by decide)
    (by decide) (by decide) (by decide)

/-! ## Claims C4, C5, C6: the client orchestrator -/

theorem countP_decodeEvents (q : Ev → Bool)
    (hq : ∀ i, q (.decodeCall i) = false) (w : Wallet) (i : String) :
    (decodeEvents w i).countP q = 0 := by
  unfold decodeEvents
  cases w.decodeInvoice <;> simp [hq]

theorem not_mem_decodeEvents (j : Nat) (auth : String) (w : Wallet)
    (i : String) : Ev.fetchRetry j auth ∉ decodeEvents w i := by
  unfold decodeEvents
  cases w.decodeInvoice <;> simp

theorem countP_capEvents (q : Ev → Bool)
    (hq : ∀ i, q (.decodeCall i) = false) (m : Option Nat) (w : Wallet)
    (i : String) : (capEvents m w i).countP q = 0 := by
  unfold capEvents
  cases m <;> simp [countP_decodeEvents q hq]

theorem not_mem_capEvents (j : Nat) (auth : String) (m : Option Nat)
    (w : Wallet) (i : String) :
    Ev.fetchRetry j auth ∉ capEvents m w i := by
  unfold capEvents
  cases m <;> simp [not_mem_decodeEvents]

theorem countP_onPayEvents (q : Ev → Bool)
    (hq1 : ∀ i, q (.decodeCall i) = false)
    (hq2 : ∀ i p, q (.onPaymentCall i p) = false) (b : Bool) (w : Wallet)
    (i p : String) : (onPayEvents b w i p).countP q = 0 := by
  unfold onPayEvents
  cases b <;> simp [List.countP_append, countP_decodeEvents q hq1, hq2]

theorem not_mem_onPayEvents (j : Nat) (auth : String) (b : Bool)
    (w : Wallet) (i p : String) :
    Ev.fetchRetry j auth ∉ onPayEvents b w i p := by
  unfold onPayEvents
  cases b <;> simp [not_mem_decodeEvents]

/-- Assembling the single-cycle property from a trace suffix. -/
theorem cycle_of_extra (env : Nat → Response) (resTrace : List Ev)
    (resResult : Except L402Err Response)
    (tr extra : List Ev) (htr : resTrace = tr ++ extra)
    (h1 : tr.countP isPayEv = 0) (h2 : tr.countP isRetryEv = 0)
    (he1 : extra.countP isPayEv ≤ 1) (he2 : extra.countP isRetryEv ≤ 1)
    (he3 : ∀ j auth, Ev.fetchRetry j auth ∈ extra →
      resResult = .ok (env j)) :
    (resTrace.countP isPayEv ≤ 1) ∧ (resTrace.countP isRetryEv ≤ 1) ∧
    (∀ j auth, Ev.fetchRetry j auth ∈ resTrace →
      resResult = .ok (env j)) := by
  refine ⟨?_, ?_, ?_⟩
  · rw [htr, List.countP_append, h1]
    omega
  · rw [htr, List.countP_append, h2]
    omega
  · intro j auth hmem
    rw [htr] at hmem
    rcases List.mem_append.mp hmem with h | h
    · have := (List.countP_eq_zero.mp h2) _ h
      simp [isRetryEv] at this
    · exact he3 j auth h

/-- The challenge→pay→replay tail of `l402Fetch`: at most one payment, at
most one replay, and whenever the replay exchange `j` happened the result is
exactly its response. -/
theorem fetchCore_cycle (a : FetchArgs) (env : Nat → Response) (now : Nat)
    (cache : Option CacheState) (k : Nat) (tr : List Ev)
    (h1 : tr.countP isPayEv = 0) (h2 : tr.countP isRetryEv = 0) :
    ((fetchCore a env now cache k tr).trace.countP isPayEv ≤ 1) ∧
    ((fetchCore a env now cache k tr).trace.countP isRetryEv ≤ 1) ∧
    (∀ j auth,
      Ev.fetchRetry j auth ∈ (fetchCore a env now cache k tr).trace →
      (fetchCore a env now cache k tr).result = .ok (env j)) := by
  by_cases hstat : (env k).status = 402
  case neg =>
    have hres : fetchCore a env now cache k tr =
        ⟨.ok (env k), cache, tr ++ [.fetchBare k]⟩ := by
      unfold fetchCore
      rw [if_pos hstat]
    rw [hres]
    exact cycle_of_extra env _ _ tr [.fetchBare k] rfl h1 h2
      (by simp [isPayEv]) (by simp [isRetryEv])
      (by intro j auth h; simp at h)
  case pos =>
    rw [show fetchCore a env now cache k tr =
        (match a.wallet with
         | none =>
           ⟨.ok (env k), cache, tr ++ [Ev.fetchBare k]⟩
         | some w =>
           match parseWwwAuthenticate (env k).wwwAuthenticate with
           | none => ⟨.ok (env k), cache, tr ++ [Ev.fetchBare k]⟩
           | some ch =>
             match capGate a.maxAmountSats w ch.invoice (env k) with
             | some (n, cap) =>
               ⟨.error (.capExceeded n cap), cache,
                (tr ++ [Ev.fetchBare k]) ++
                  capEvents a.maxAmountSats w ch.invoice⟩
             | none =>
               match w.payInvoice ch.invoice with
               | .error _ =>
                 ⟨.error .payFailed, cache,
                  ((tr ++ [Ev.fetchBare k]) ++
                    capEvents a.maxAmountSats w ch.invoice) ++
                    [.payCall ch.invoice]⟩
               | .ok pre =>
                 match pre with
                 | none =>
                   ⟨.error .noPreimage, cache,
                    ((tr ++ [Ev.fetchBare k]) ++
                      capEvents a.maxAmountSats w ch.invoice) ++
                      [.payCall ch.invoice]⟩
                 | some p =>
                   if p = "" then
                     ⟨.error .noPreimage, cache,
                      ((tr ++ [Ev.fetchBare k]) ++
                        capEvents a.maxAmountSats w ch.invoice) ++
                        [.payCall ch.invoice]⟩
                   else
                     ⟨.ok (env (k + 1)),
                      (match cache with
                       | some c =>
                         some (c.set a.url
                           ⟨ch.macaroon, p, some (now + 3600000)⟩
                           (some (effMethod a.method)) now)
                       | none => none),
                      ((((tr ++ [Ev.fetchBare k]) ++
                        capEvents a.maxAmountSats w ch.invoice) ++
                        [.payCall ch.invoice]) ++
                        onPayEvents a.hasOnPayment w ch.invoice p) ++
                        [.fetchRetry (k + 1)
                          ("L402 " ++ ch.macaroon ++ ":" ++ p)]⟩
         : FetchRes) from by
      unfold fetchCore
      rw [if_neg (by simp [hstat])]]
    cases hw : a.wallet with
    | none =>
      exact cycle_of_extra env _ _ tr [.fetchBare k] rfl h1 h2
        (by simp [isPayEv]) (by simp [isRetryEv])
        (by intro j auth h; simp at h)
    | some w =>
      simp only []
      cases hch : parseWwwAuthenticate (env k).wwwAuthenticate with
      | none =>
        exact cycle_of_extra env _ _ tr [.fetchBare k] rfl h1 h2
          (by simp [isPayEv]) (by simp [isRetryEv])
          (by intro j auth h; simp at h)
      | some ch =>
        simp only []
        cases hgate : capGate a.maxAmountSats w ch.invoice (env k) with
        | some pr =>
          obtain ⟨n, cap⟩ := pr
          simp only []
          refine cycle_of_extra env _ _ tr
            ([Ev.fetchBare k] ++ capEvents a.maxAmountSats w ch.invoice)
            ?_ h1 h2 ?_ ?_ ?_
          · simp [List.append_assoc]
          · simp [List.countP_append,
              countP_capEvents isPayEv (fun _ => rfl), isPayEv]
          · simp [List.countP_append,
              countP_capEvents isRetryEv (fun _ => rfl), isRetryEv]
          · intro j auth h
            rcases List.mem_append.mp h with h | h
            · simp at h
            · exact absurd h (not_mem_capEvents j auth _ w _)
        | none =>
          simp only []
          cases hpay : w.payInvoice ch.invoice with
          | error e =>
            simp only []
            refine cycle_of_extra env _ _ tr
              (([Ev.fetchBare k] ++
                capEvents a.maxAmountSats w ch.invoice) ++
                [Ev.payCall ch.invoice])
              ?_ h1 h2 ?_ ?_ ?_
            · simp [List.append_assoc]
            · simp [List.countP_append,
                countP_capEvents isPayEv (fun _ => rfl), isPayEv]
            · simp [List.countP_append,
                countP_capEvents isRetryEv (fun _ => rfl), isRetryEv]
            · intro j auth h
              rcases List.mem_append.mp h with h | h
              · rcases List.mem_append.mp h with h | h
                · simp at h
                · exact absurd h (not_mem_capEvents j auth _ w _)
              · simp at h
          | ok pre =>
            simp only []
            cases pre with
            | none =>
              simp only []
              refine cycle_of_extra env _ _ tr
                (([Ev.fetchBare k] ++
                  capEvents a.maxAmountSats w ch.invoice) ++
                  [Ev.payCall ch.invoice])
                ?_ h1 h2 ?_ ?_ ?_
              · simp [List.append_assoc]
              · simp [List.countP_append,
                  countP_capEvents isPayEv (fun _ => rfl), isPayEv]
              · simp [List.countP_append,
                  countP_capEvents isRetryEv (fun _ => rfl), isRetryEv]
              · intro j auth h
                rcases List.mem_append.mp h with h | h
                · rcases List.mem_append.mp h with h | h
                  · simp at h
                  · exact absurd h (not_mem_capEvents j auth _ w _)
                · simp at h
            | some p =>
              simp only []
              by_cases hp : p = ""
              · rw [if_pos hp]
                refine cycle_of_extra env _ _ tr
                  (([Ev.fetchBare k] ++
                    capEvents a.maxAmountSats w ch.invoice) ++
                    [Ev.payCall ch.invoice])
                  ?_ h1 h2 ?_ ?_ ?_
                · simp [List.append_assoc]
                · simp [List.countP_append,
                    countP_capEvents isPayEv (fun _ => rfl), isPayEv]
                · simp [List.countP_append,
                    countP_capEvents isRetryEv (fun _ => rfl), isRetryEv]
                · intro j auth h
                  rcases List.mem_append.mp h with h | h
                  · rcases List.mem_append.mp h with h | h
                    · simp at h
                    · exact absurd h (not_mem_capEvents j auth _ w _)
                  · simp at h
              · rw [if_neg hp]
                refine cycle_of_extra env _ _ tr
                  (((([Ev.fetchBare k] ++
                    capEvents a.maxAmountSats w ch.invoice) ++
                    [Ev.payCall ch.invoice]) ++
                    onPayEvents a.hasOnPayment w ch.invoice p) ++
                    [Ev.fetchRetry (k + 1)
                      ("L402 " ++ ch.macaroon ++ ":" ++ p)])
                  ?_ h1 h2 ?_ ?_ ?_
                · simp [List.append_assoc]
                · simp [List.countP_append,
                    countP_capEvents isPayEv (fun _ => rfl),
                    countP_onPayEvents isPayEv (fun _ => rfl)
                      (fun _ _ => rfl), isPayEv]
                · simp [List.countP_append,
                    countP_capEvents isRetryEv (fun _ => rfl),
                    countP_onPayEvents isRetryEv (fun _ => rfl)
                      (fun _ _ => rfl), isRetryEv]
                · intro j auth h
                  rcases List.mem_append.mp h with h | h
                  · rcases List.mem_append.mp h with h | h
                    · rcases List.mem_append.mp h with h | h
                      · rcases List.mem_append.mp h with h | h
                        · simp at h
                        · exact absurd h (not_mem_capEvents j auth _ w _)
                      · simp at h
                    · exact absurd h (not_mem_onPayEvents j auth _ w _ _)
                  · simp only [List.mem_singleton, Ev.fetchRetry.injEq]
                      at h
                    obtain ⟨hj, _⟩ := h
                    subst hj
                    rfl

/-- The cache preamble either returns the cached-credential response or
falls through with a payment-free, replay-free trace. -/
theorem phase1_cases (a : FetchArgs) (env : Nat → Response) (now : Nat) :
    (∃ auth c, phase1 a env now =
        .early ⟨.ok (env 0), c, [Ev.fetchCached 0 auth]⟩) ∨
    (∃ c k tr, phase1 a env now = .toBare c k tr ∧
      tr.countP isPayEv = 0 ∧ tr.countP isRetryEv = 0) := by
  unfold phase1
  cases a.cache with
  | none => right; exact ⟨none, 0, [], rfl, rfl, rfl⟩
  | some c =>
    simp only []
    rcases hget : c.get a.url (some (effMethod a.method)) now with
      ⟨cred, c1⟩
    cases cred with
    | none =>
      right
      exact ⟨some c1, 0, [], rfl, rfl, rfl⟩
    | some cr =>
      simp only []
      by_cases hst : (env 0).status ≠ 401 ∧ (env 0).status ≠ 402
      · rw [if_pos hst]
        left
        exact ⟨"L402 " ++ cr.macaroon ++ ":" ++ cr.preimage, some c1, rfl⟩
      · rw [if_neg hst]
        right
        exact ⟨some (c1.invalidate a.url (some (effMethod a.method))), 1,
          [Ev.fetchCached 0 ("L402 " ++ cr.macaroon ++ ":" ++ cr.preimage)],
          rfl, rfl, rfl⟩

/-- C5: the challenge→pay→replay cycle runs at most once per `l402Fetch`
call — `payInvoice` is invoked at most once, the replay exchange is issued
at most once, and whenever the replay happened (exchange `j`) the result is
that response returned unchanged, even if it is again payment-required. -/
theorem c5_single_cycle (a : FetchArgs) (env : Nat → Response) (now : Nat) :
    ((l402Fetch a env now).trace.countP isPayEv ≤ 1) ∧
    ((l402Fetch a env now).trace.countP isRetryEv ≤ 1) ∧
    (∀ j auth, Ev.fetchRetry j auth ∈ (l402Fetch a env now).trace →
      (l402Fetch a env now).result = .ok (env j)) := by
  unfold l402Fetch
  rcases phase1_cases a env now with ⟨auth, c, hph⟩ |
    ⟨c, k, tr, hph, ht1, ht2⟩
  · rw [hph]
    refine ⟨by simp [isPayEv], by simp [isRetryEv], ?_⟩
    intro j auth2 hmem
    simp at hmem
  · rw [hph]
    exact fetchCore_cycle a env now c k tr ht1 ht2

/-- Witness for C5: a concrete run that pays once, replays once, and
returns the replay response. -/
theorem c5_witness :
    ((l402Fetch
        ⟨"http://h/x", none, some ⟨none, fun _ => .ok (some "ab")⟩, none,
         none, false⟩
        (fun j => if j = 0 then
          ⟨402, some "L402 invoice=\"i\", macaroon=\"aa\"", none⟩
         else ⟨200, none, none⟩) 0).trace.countP isPayEv ≤ 1) ∧
    ((l402Fetch
        ⟨"http://h/x", none, some ⟨none, fun _ => .ok (some "ab")⟩, none,
         none, false⟩
        (fun j => if j = 0 then
          ⟨402, some "L402 invoice=\"i\", macaroon=\"aa\"", none⟩
         else ⟨200, none, none⟩) 0).trace.countP isRetryEv ≤ 1) ∧
    (l402Fetch
        ⟨"http://h/x", none, some ⟨none, fun _ => .ok (some "ab")⟩, none,
         none, false⟩
        (fun j => if j = 0 then
          ⟨402, some "L402 invoice=\"i\", macaroon=\"aa\"", none⟩
         else ⟨200, none, none⟩) 0).result =
      .ok ((fun j => if j = 0 then
          ⟨402, some "L402 invoice=\"i\", macaroon=\"aa\"", none⟩
         else ⟨200, none, none⟩ : Nat → Response) 1) := by
  have h := c5_single_cycle
    ⟨"http://h/x", none, some ⟨none, fun _ => .ok (some "ab")⟩, none,
     none, false⟩
    (fun j => if j = 0 then
      ⟨402, some "L402 invoice=\"i\", macaroon=\"aa\"", none⟩
     else ⟨200, none, none⟩) 0
  exact ⟨h.1, h.2.1, h.2.2 1 "L402 aa:ab" (by decide)⟩

theorem payCall_not_mem_capEvents (i0 : String) (m : Option Nat)
    (w : Wallet) (i : String) : Ev.payCall i0 ∉ capEvents m w i := by
  unfold capEvents decodeEvents
  cases m <;> cases w.decodeInvoice <;> simp

/-- Evaluation of `fetchCore` past a recognised challenge. -/
theorem fetchCore_challenge (a : FetchArgs) (env : Nat → Response)
    (now : Nat) (cache : Option CacheState) (k : Nat) (tr : List Ev)
    (w : Wallet) (hw : a.wallet = some w)
    (hstat : (env k).status = 402) (ch : Challenge)
    (hch : parseWwwAuthenticate (env k).wwwAuthenticate = some ch) :
    fetchCore a env now cache k tr =
      (match capGate a.maxAmountSats w ch.invoice (env k) with
       | some (n, cap) =>
         ⟨.error (.capExceeded n cap), cache,
          (tr ++ [Ev.fetchBare k]) ++
            capEvents a.maxAmountSats w ch.invoice⟩
       | none =>
         match w.payInvoice ch.invoice with
         | .error _ =>
           ⟨.error .payFailed, cache,
            ((tr ++ [Ev.fetchBare k]) ++
              capEvents a.maxAmountSats w ch.invoice) ++
              [.payCall ch.invoice]⟩
         | .ok pre =>
           match pre with
           | none =>
             ⟨.error .noPreimage, cache,
              ((tr ++ [Ev.fetchBare k]) ++
                capEvents a.maxAmountSats w ch.invoice) ++
                [.payCall ch.invoice]⟩
           | some p =>
             if p = "" then
               ⟨.error .noPreimage, cache,
                ((tr ++ [Ev.fetchBare k]) ++
                  capEvents a.maxAmountSats w ch.invoice) ++
                  [.payCall ch.invoice]⟩
             else
               ⟨.ok (env (k + 1)),
                (match cache with
                 | some c =>
                   some (c.set a.url ⟨ch.macaroon, p, some (now + 3600000)⟩
                     (some (effMethod a.method)) now)
                 | none => none),
                ((((tr ++ [Ev.fetchBare k]) ++
                  capEvents a.maxAmountSats w ch.invoice) ++
                  [.payCall ch.invoice]) ++
                  onPayEvents a.hasOnPayment w ch.invoice p) ++
                  [.fetchRetry (k + 1)
                    ("L402 " ++ ch.macaroon ++ ":" ++ p)]⟩
       : FetchRes) := by
  unfold fetchCore
  rw [if_neg (by simp [hstat]), hw]
  simp only []
  rw [hch]

/-- C4: under a configured spending cap, on a 402 exchange with a decodable
challenge: if an amount is determined and exceeds the cap, the call fails
with the distinct cap-exceeded error and `payInvoice` is never invoked;
if no amount is determined (`null` or absent), the call proceeds to
payment. -/
theorem c4_spending_cap (a : FetchArgs) (env : Nat → Response) (now : Nat)
    (c : Option CacheState) (k : Nat) (tr : List Ev)
    (hph : phase1 a env now = .toBare c k tr)
    (w : Wallet) (hw : a.wallet = some w)
    (cap : Nat) (hcap : a.maxAmountSats = some cap)
    (hstat : (env k).status = 402) (ch : Challenge)
    (hch : parseWwwAuthenticate (env k).wwwAuthenticate = some ch) :
    (∀ n, determineAmount w ch.invoice (env k) = .num n → n > cap →
      (l402Fetch a env now).result = .error (.capExceeded n cap) ∧
      ∀ i, Ev.payCall i ∉ (l402Fetch a env now).trace) ∧
    ((determineAmount w ch.invoice (env k) = .nullv ∨
      determineAmount w ch.invoice (env k) = .undef) →
      Ev.payCall ch.invoice ∈ (l402Fetch a env now).trace) := by
  have hfl : l402Fetch a env now = fetchCore a env now c k tr := by
    unfold l402Fetch
    rw [hph]
  have hz : tr.countP isPayEv = 0 := by
    rcases phase1_cases a env now with ⟨auth, c2, hph2⟩ |
      ⟨c2, k2, tr2, hph2, ht1, ht2⟩
    · rw [hph] at hph2
      simp at hph2
    · have he := hph.symm.trans hph2
      simp only [Phase1.toBare.injEq] at he
      rw [he.2.2]
      exact ht1
  have hcore := fetchCore_challenge a env now c k tr w hw hstat ch hch
  constructor
  · intro n hd hn
    have hg : capGate a.maxAmountSats w ch.invoice (env k) =
        some (n, cap) := by
      rw [hcap]
      simp [capGate, hd, hn]
    refine ⟨?_, ?_⟩
    · rw [hfl, hcore, hg]
    · intro i hmem
      rw [hfl, hcore, hg] at hmem
      simp only [] at hmem
      rcases List.mem_append.mp hmem with h | h
      · rcases List.mem_append.mp h with h | h
        · have := (List.countP_eq_zero.mp hz) _ h
          simp [isPayEv] at this
        · simp at h
      · exact payCall_not_mem_capEvents i a.maxAmountSats w ch.invoice h
  · intro hd
    have hg0 : capGate a.maxAmountSats w ch.invoice (env k) = none := by
      rcases hd with hd | hd <;> simp [capGate, hcap, hd]
    rw [hfl, hcore, hg0]
    simp only []
    cases hpay : w.payInvoice ch.invoice with
    | error e => simp
    | ok pre =>
      simp only []
      cases pre with
      | none => simp
      | some p =>
        simp only []
        by_cases hp : p = ""
        · rw [if_pos hp]
          simp
        · rw [if_neg hp]
          simp

/-- Witness for C4: a cap of 30 against a decoded amount of 50 aborts with
the cap-exceeded error and no `payInvoice` call appears in the trace. -/
theorem c4_witness :
    (l402Fetch ⟨"http://h/x", none,
        some ⟨some (fun _ => .ok (.num 50)), fun _ => .ok (some "ab")⟩,
        some 30, none, false⟩
      (fun _ => ⟨402, some "L402 invoice=\"i\", macaroon=\"aa\"", none⟩)
      0).result = .error (.capExceeded 50 30) ∧
    Ev.payCall "i" ∉
      (l402Fetch ⟨"http://h/x", none,
          some ⟨some (fun _ => .ok (.num 50)), fun _ => .ok (some "ab")⟩,
          some 30, none, false⟩
        (fun _ => ⟨402, some "L402 invoice=\"i\", macaroon=\"aa\"", none⟩)
        0).trace := by
  have h := (c4_spending_cap ⟨"http://h/x", none,
      some ⟨some (fun _ => .ok (.num 50)), fun _ => .ok (some "ab")⟩,
      some 30, none, false⟩
    (fun _ => ⟨402, some "L402 invoice=\"i\", macaroon=\"aa\"", none⟩)
    0 none 0 [] rfl
    ⟨some (fun _ => .ok (.num 50)), fun _ => .ok (some "ab")⟩ rfl
    30 rfl rfl ⟨"i", "aa"⟩ (by decide)).1 50 rfl (by decide)
  exact ⟨h.1, h.2 "i"⟩

/-- C6 counterexample: the orchestrator's post-settlement cache write stores
the wallet preimage against the challenge macaroon without running the
verifier, so a wallet returning the non-verifying preimage "00" for the
fingerprint "00" leaves a cached credential that fails the Proof Verifier. -/
theorem c6_counterexample :
    ∃ cres e,
      (l402Fetch ⟨"http://h/x", none,
          some ⟨none, fun _ => .ok (some "00")⟩, none,
          some (mkCache none none), false⟩
        (fun _ => ⟨402, some "L402 invoice=\"i\", macaroon=\"00\"", none⟩)
        0).cache = some cres ∧
      mapGet cres.entries (cacheKey "http://h/x" (some "GET")) = some e ∧
      verifyPreimage e.preimage e.macaroon = false := by
  refine ⟨⟨[("GET:http://h/x", ⟨"00", "00", 3600000, 0⟩)], 1000, 3600000⟩,
    ⟨"00", "00", 3600000, 0⟩, by decide, by decide, ?_⟩
  have h := verify_00_00_false
  rwa [show jsToLower "00" = "00" from by decide] at h

/-- C6 (amended): what the settlement cache write actually stores.  Under a
successful pay-and-replay run it records exactly the challenge macaroon and
the wallet preimage, with no verification step; consequently the cached
entry satisfies the Proof Verifier precisely when the wallet's preimage
already verifies against the challenge macaroon. -/
theorem c6_amended (a : FetchArgs) (env : Nat → Response) (now : Nat)
    (c0 : CacheState) (k : Nat) (tr : List Ev)
    (hph : phase1 a env now = .toBare (some c0) k tr)
    (w : Wallet) (hw : a.wallet = some w)
    (hstat : (env k).status = 402) (ch : Challenge)
    (hch : parseWwwAuthenticate (env k).wwwAuthenticate = some ch)
    (hgate : capGate a.maxAmountSats w ch.invoice (env k) = none)
    (p : String) (hpay : w.payInvoice ch.invoice = .ok (some p))
    (hp : p ≠ "") :
    ∃ cres, (l402Fetch a env now).cache = some cres ∧
      mapGet cres.entries (cacheKey a.url (some (effMethod a.method))) =
        some ⟨ch.macaroon, p, now + 3600000, now⟩ ∧
      (verifyPreimage p ch.macaroon = true →
        ∀ e, mapGet cres.entries
            (cacheKey a.url (some (effMethod a.method))) = some e →
          verifyPreimage e.preimage e.macaroon = true) := by
  have hfl : l402Fetch a env now = fetchCore a env now (some c0) k tr := by
    unfold l402Fetch
    rw [hph]
  have hcore := fetchCore_challenge a env now (some c0) k tr w hw hstat ch
    hch
  have hne : now + 3600000 ≠ 0 := by omega
  have hmg : mapGet (c0.set a.url ⟨ch.macaroon, p, some (now + 3600000)⟩
      (some (effMethod a.method)) now).entries
      (cacheKey a.url (some (effMethod a.method))) =
      some ⟨ch.macaroon, p, now + 3600000, now⟩ := by
    unfold CacheState.set
    simp only []
    rw [mapGet_mapSet_self]
    simp [effectiveExpiry, hne]
  refine ⟨c0.set a.url ⟨ch.macaroon, p, some (now + 3600000)⟩
      (some (effMethod a.method)) now, ?_, hmg, ?_⟩
  · rw [hfl, hcore, hgate]
    simp only []
    rw [hpay]
    simp only []
    rw [if_neg hp]
  · intro hv e he
    rw [hmg] at he
    simp only [Option.some.injEq] at he
    subst he
    exact hv

/-- Witness for C6 (amended): a wallet preimage that does verify against the
challenge macaroon is cached as a verifying credential. -/
theorem c6_witness :
    ∃ cres,
      (l402Fetch ⟨"http://h/x", none,
          some ⟨none, fun _ => .ok (some "00")⟩, none,
          some (mkCache none none), false⟩
        (fun _ => ⟨402,
          some ("L402 invoice=\"i\", macaroon=\"" ++
            "6e340b9cffb37a989ca544e6bb780a2c78901d3fb33738768511a30617afa01d" ++
            "\""), none⟩)
        0).cache = some cres ∧
      mapGet cres.entries (cacheKey "http://h/x" (some (effMethod none))) =
        some
          ⟨"6e340b9cffb37a989ca544e6bb780a2c78901d3fb33738768511a30617afa01d",
           "00", 0 + 3600000, 0⟩ ∧
      (verifyPreimage "00"
          "6e340b9cffb37a989ca544e6bb780a2c78901d3fb33738768511a30617afa01d" =
          true →
        ∀ e, mapGet cres.entries
            (cacheKey "http://h/x" (some (effMethod none))) = some e →
          verifyPreimage e.preimage e.macaroon = true) :=
  c6_amended ⟨"http://h/x", none, some ⟨none, fun _ => .ok (some "00")⟩,
      none, some (mkCache none none), false⟩
    (fun _ => ⟨402,
      some ("L402 invoice=\"i\", macaroon=\"" ++
        "6e340b9cffb37a989ca544e6bb780a2c78901d3fb33738768511a30617afa01d" ++
        "\""), none⟩)
    0 (mkCache none none) 0 [] rfl ⟨none, fun _ => .ok (some "00")⟩ rfl rfl
    ⟨"i",
     "6e340b9cffb37a989ca544e6bb780a2c78901d3fb33738768511a30617afa01d"⟩
    (by decide) rfl "00" rfl (by decide)

end L402
